import Mathlib

/-!
Verification of the structure I/O and optimization-orchestration core of
`streamlit_app.py` (a molecular viewer).  The Python functions
`parse_xyz_string`, `write_xyz_string`, `parse_trajectory_xyz`,
`get_trajectory_from_xtb`, `run_xtb_optimization`, the optimization button
handler and the trajectory-slider selection are embedded shallowly:

* text is Lean `String`; Python's `str.strip`, `str.split('\n')`,
  whitespace `str.split()`, `int(...)` and `float(...)` are modelled
  character-for-character on `List Char` (`pyStrip`, `splitLines`,
  `pySplit`, `pyInt`, `pyFloat`);
* numeric values are exact rationals (`ℚ`): `float(...)` of a decimal
  literal is its exact value and the `:.6f` format rounds exactly to six
  decimals (`fmt6`).  Binary-double artefacts (and `inf`/`nan` literals,
  digit underscores) are outside this idealisation; no claim depends on
  them;
* code that can raise (`ValueError`, `IndexError`, a failed `open`)
  returns `Option`, with `none` for an uncaught exception;
* the `while` loop of `parse_trajectory_xyz` is not structurally
  recursive (its cursor can fail to advance), so it is run on explicit
  fuel `trajFuel`, large enough for every terminating run of the Python
  loop (each cursor value is visited at most once by the deterministic
  step, and all visited cursors lie in an interval of that size);
  `none` marks a run that diverges;
* the subprocess/filesystem environment of `run_xtb_optimization` is an
  explicit record `XtbEnv`, and Streamlit's `st.error` calls are
  collected as a list of emitted messages;
* Streamlit session state is the record `SessionState`, and the button
  handler is the state transformer `run_button_handler`.
-/

/-- Python's whitespace characters (the ASCII ones), as stripped by
`str.strip()` and split on by `str.split()`. -/
def isPySpace (c : Char) : Bool :=
  c = ' ' || c = '\t' || c = '\n' || c = '\r' || c = '\x0b' || c = '\x0c'

/-- Strip leading and trailing Python whitespace from a character list. -/
def stripChars (cs : List Char) : List Char :=
  (((cs.dropWhile isPySpace).reverse).dropWhile isPySpace).reverse

/-- Python `s.strip()`. -/
def pyStrip (s : String) : String :=
  String.mk (stripChars s.data)

/-- Python `s.split('\n')` on a character list: pieces between newline
characters, empty pieces kept (so the result is always nonempty). -/
def splitCh : List Char → List (List Char)
  | [] => [[]]
  | c :: cs =>
    if c = '\n' then [] :: splitCh cs
    else
      match splitCh cs with
      | [] => [[c]]
      | l :: ls => (c :: l) :: ls

/-- Python `s.split('\n')`. -/
def splitLines (s : String) : List String :=
  (splitCh s.data).map String.mk

/-- Helper for whitespace tokenisation: `cur` is the current token,
reversed. -/
def tokensAux : List Char → List Char → List (List Char)
  | cur, [] => if cur.isEmpty then [] else [cur.reverse]
  | cur, c :: cs =>
    if isPySpace c then
      if cur.isEmpty then tokensAux [] cs else cur.reverse :: tokensAux [] cs
    else tokensAux (c :: cur) cs

/-- Python `s.split()` (no argument): maximal runs of non-whitespace. -/
def pySplit (s : String) : List String :=
  (tokensAux [] s.data).map String.mk

/-- Python list indexing `xs[i]` with an `int` index: negative indices
count from the end, and an index out of range raises (`none`). -/
def pyGet (xs : List String) (i : Int) : Option String :=
  if 0 ≤ i then xs[i.toNat]?
  else if 0 ≤ i + xs.length then xs[(i + xs.length).toNat]? else none

/-- Value of a digit character. -/
def digitVal (c : Char) : Nat := c.toNat - 48

/-- Value of a most-significant-first digit string. -/
def digitsNat (ds : List Char) : Nat :=
  ds.foldl (fun a c => 10 * a + digitVal c) 0

/-- Nonempty all-digit character list to its value, else `none`. -/
def digitsToNat : List Char → Option Nat
  | [] => none
  | cs => if cs.all Char.isDigit then some (digitsNat cs) else none

/-- Python `int(s)` on characters: strip whitespace, optional sign, then a
nonempty run of decimal digits (digit-group underscores are not
modelled). -/
def pyIntCh (cs0 : List Char) : Option Int :=
  match stripChars cs0 with
  | [] => none
  | c :: rest =>
    if c = '+' then (digitsToNat rest).map Int.ofNat
    else if c = '-' then (digitsToNat rest).map fun m => -(m : Int)
    else (digitsToNat (c :: rest)).map Int.ofNat

/-- Python `int(s)`. -/
def pyInt (s : String) : Option Int := pyIntCh s.data

/-- Leading run of decimal digits and the remainder. -/
def readDigits : List Char → List Char × List Char
  | [] => ([], [])
  | c :: cs =>
    if c.isDigit then
      match readDigits cs with
      | (ds, r) => (c :: ds, r)
    else ([], c :: cs)

/-- Optional leading sign, as a rational factor. -/
def readSignQ : List Char → ℚ × List Char
  | [] => (1, [])
  | c :: cs =>
    if c = '+' then (1, cs)
    else if c = '-' then (-1, cs)
    else (1, c :: cs)

/-- Value of a digit string as a rational. -/
def digitsValQ (ds : List Char) : ℚ := (digitsNat ds : ℚ)

/-- Exponent suffix of a Python float literal: empty, or `e`/`E`, an
optional sign and a nonempty digit run; the resulting power-of-ten
factor. -/
def expVal : List Char → Option ℚ
  | [] => some 1
  | c :: cs =>
    if c = 'e' ∨ c = 'E' then
      let sr :=
        match cs with
        | '+' :: cs2 => ((1 : Int), cs2)
        | '-' :: cs2 => ((-1 : Int), cs2)
        | cs2 => ((1 : Int), cs2)
      let dr := readDigits sr.2
      if dr.1 = [] ∨ dr.2 ≠ [] then none
      else some ((10 : ℚ) ^ (sr.1 * (digitsNat dr.1 : Int)))
    else none

/-- Python `float(s)` on characters: strip, optional sign, decimal digits
with an optional point (not both parts empty), optional exponent.  The
exact rational value is returned; `inf`/`nan` and digit underscores are
not modelled (`none`), and no claim involves them. -/
def pyFloatCh (cs0 : List Char) : Option ℚ :=
  let s1 := readSignQ (stripChars cs0)
  let ir := readDigits s1.2
  match ir.2 with
  | '.' :: cs3 =>
    let fr := readDigits cs3
    if ir.1 = [] ∧ fr.1 = [] then none
    else
      (expVal fr.2).map fun m =>
        s1.1 * (digitsValQ ir.1 + digitsValQ fr.1 / 10 ^ fr.1.length) * m
  | rest =>
    if ir.1 = [] then none
    else (expVal rest).map fun m => s1.1 * digitsValQ ir.1 * m

/-- Python `float(s)`. -/
def pyFloat (s : String) : Option ℚ := pyFloatCh s.data

/-- Decimal digit character. -/
def digitChar (n : Nat) : Char := Char.ofNat (48 + n)

/-- Decimal rendering of a natural, most significant digit first
(fuelled; the fuel `n + 1` always suffices). -/
def natReprAux : Nat → Nat → List Char
  | 0, _ => []
  | f + 1, n =>
    if n < 10 then [digitChar n]
    else natReprAux f (n / 10) ++ [digitChar (n % 10)]

/-- Python `str(n)` / `f"{n}"` for a nonnegative integer. -/
def natRepr (n : Nat) : String := String.mk (natReprAux (n + 1) n)

/-- Python `f"{x:.6f}"` over the rational idealisation: round to six
decimals and print sign, integer part, point, six fraction digits.
(Rounding of exact ties is unobservable for values coming from binary
doubles, which are never ties at the seventh decimal.) -/
def fmt6 (q : ℚ) : String :=
  let m : Int := round (q * 1000000)
  let n := m.natAbs
  let frs := natReprAux (n % 1000000 + 1) (n % 1000000)
  (if q < 0 then "-" else "") ++ natRepr (n / 1000000) ++ "." ++
    String.mk (List.replicate (6 - frs.length) '0' ++ frs)

/-- Concatenation of a list of strings. -/
def concatAll : List String → String
  | [] => ""
  | s :: r => s ++ concatAll r

/-- The text of a list of lines, each terminated by a newline — the form
in which XYZ blocks appear in a file. -/
def blockText : List String → String
  | [] => ""
  | l :: ls => l ++ "\n" ++ blockText ls

/-- Lines joined by single newline characters (no trailing newline). -/
def interData : List (List Char) → List Char
  | [] => []
  | [l] => l
  | l :: ls => l ++ '\n' :: interData ls

/-- Lines each terminated by a newline character. -/
def joinData : List (List Char) → List Char
  | [] => []
  | l :: ls => l ++ '\n' :: joinData ls

/-- Atom-line loop of `parse_xyz_string` (source lines 60–64): for each
index, a missing line raises (`none`); a blank line is skipped; otherwise
the first token is the element and tokens 2–4 are parsed as floats, a
failure aborting the whole parse. -/
def parseAtoms (lines : List String) : List Nat → Option (List String × List (List ℚ))
  | [] => some ([], [])
  | i :: rest => do
    let l ← lines[i]?
    if pyStrip l = "" then parseAtoms lines rest
    else do
      let e ← (pySplit l).head?
      let cs ← (((pySplit l).drop 1).take 3).mapM pyFloat
      let p ← parseAtoms lines rest
      pure (e :: p.1, cs :: p.2)

/-- `parse_xyz_string` (source lines 52–66) after the strip/split step:
`int(lines[0])`, `comment = lines[1]`, then the atom loop over
`range(2, num_atoms + 2)`. -/
def parseXyzLines (lines : List String) : Option (List String × List (List ℚ) × String) := do
  let l0 ← lines[0]?
  let n ← pyInt l0
  let comment ← lines[1]?
  let p ← parseAtoms lines (List.range' 2 n.toNat)
  pure (p.1, p.2, comment)

/-- `parse_xyz_string` (source lines 52–66). -/
def parse_xyz_string (s : String) : Option (List String × List (List ℚ) × String) :=
  parseXyzLines (splitLines (pyStrip s))

/-- `write_xyz_string` (source lines 68–73): header line with the atom
count, comment line, then one `f"{atom} {x:.6f} {y:.6f} {z:.6f}\n"` line
per zipped (atom, coordinate) pair; a coordinate list with fewer than
three entries raises (`none`). -/
def write_xyz_string (atoms : List String) (coordinates : List (List ℚ))
    (comment : String := "Generated by Streamlit app") : Option String := do
  let body ← (atoms.zip coordinates).mapM fun p => do
    let x ← p.2[0]?
    let y ← p.2[1]?
    let z ← p.2[2]?
    pure (p.1 ++ " " ++ fmt6 x ++ " " ++ fmt6 y ++ " " ++ fmt6 z ++ "\n")
  pure (natRepr atoms.length ++ "\n" ++ comment ++ "\n" ++ concatAll body)

/-- Inner atom loop of `parse_trajectory_xyz` (source lines 89–94): for
each index `j` in `range(i+2, i+2+num_atoms)`, indices `≥ len(lines)` are
skipped by the guard; lines with fewer than 4 tokens are skipped; a float
failure aborts the block (`none`). -/
def trajAtoms (lines : List String) : List Int → Option (List (String × List ℚ))
  | [] => some []
  | j :: rest =>
    if j < (lines.length : Int) then do
      let l ← pyGet lines j
      if 4 ≤ (pySplit l).length then do
        let e ← (pySplit l).head?
        let cs ← (((pySplit l).drop 1).take 3).mapM pyFloat
        let tl ← trajAtoms lines rest
        pure ((e, cs) :: tl)
      else trajAtoms lines rest
    else trajAtoms lines rest

/-- One iteration of the `try` body of `parse_trajectory_xyz` (source
lines 83–99) at cursor `i`: `none` is a caught exception (the loop then
advances by one); otherwise the structure to append, if nonempty, and the
new cursor `i + num_atoms + 2`. -/
def trajIter (lines : List String) (i : Int) :
    Option (Option (List String × List (List ℚ)) × Int) := do
  let l0 ← pyGet lines i
  let n ← pyInt l0
  let _cm ← pyGet lines (i + 1)
  let pairs ← trajAtoms lines ((List.range n.toNat).map fun k : Nat => i + 2 + (k : Int))
  pure (if pairs.isEmpty then none else some (pairs.map Prod.fst, pairs.map Prod.snd),
    i + n + 2)

/-- The `while i < len(lines)` loop of `parse_trajectory_xyz` (source
lines 82–101), on fuel; `none` marks exhausted fuel (a diverging run). -/
def trajLoop (lines : List String) (fuel : Nat) (i : Int)
    (acc : List (List String × List (List ℚ))) :
    Option (List (List String × List (List ℚ))) :=
  if i < (lines.length : Int) then
    match fuel with
    | 0 => none
    | f + 1 =>
      match trajIter lines i with
      | some si => trajLoop lines f si.2 (acc ++ si.1.toList)
      | none => trajLoop lines f (i + 1) acc
  else some acc

/-- Largest absolute header value parseable from any line. -/
def trajMaxAbs (lines : List String) : Nat :=
  (lines.map fun l => ((pyInt l).map Int.natAbs).getD 0).foldr max 0

/-- Fuel sufficient for every terminating run of the trajectory loop: the
deterministic cursor never repeats a value in a terminating run, and all
visited cursors lie in `[-(len + maxAbs), len)`. -/
def trajFuel (lines : List String) : Nat :=
  2 * lines.length + trajMaxAbs lines + 8

/-- `parse_trajectory_xyz` (source lines 76–103). -/
def parse_trajectory_xyz (s : String) :
    Option (List (List String × List (List ℚ))) :=
  let lines := splitLines (pyStrip s)
  trajLoop lines (trajFuel lines) 0 []

/-- The process/filesystem environment `run_xtb_optimization` interacts
with: whether the `xtb` binary resolves on the execution path, whether the
run exits zero, and existence/content of the two output files in the
scratch directory. -/
structure XtbEnv where
  xtbOnPath : Bool
  exitZero : Bool
  xtboptExists : Bool
  xtboptContent : String
  logExists : Bool
  logContent : String
deriving DecidableEq

/-- `get_trajectory_from_xtb` (source lines 105–113): read `xtbopt.log`,
returning its content, or emit "Trajectory file not found" and return
`None`.  The second component is the list of `st.error` messages
emitted. -/
def get_trajectory_from_xtb (env : XtbEnv) : Option String × List String :=
  if env.logExists then (some env.logContent, [])
  else (none, ["Trajectory file not found"])

/-- `run_xtb_optimization` (source lines 115–135).  Control flow of the
`try`: a missing binary raises `FileNotFoundError` from `subprocess.run`;
a nonzero exit raises `CalledProcessError`; a missing `xtbopt.xyz` raises
`FileNotFoundError` from `open`, caught by the same handler as the
missing binary (so it emits the same tool-availability message); otherwise
the optimized text and the trajectory read are returned. -/
def run_xtb_optimization (env : XtbEnv) :
    (Option String × Option String) × List String :=
  if env.xtbOnPath = false then
    ((none, none), ["xTB is not installed or not in PATH"])
  else if env.exitZero = false then
    ((none, none), [])
  else if env.xtboptExists = false then
    ((none, none), ["xTB is not installed or not in PATH"])
  else
    let tr := get_trajectory_from_xtb env
    ((some env.xtboptContent, tr.1), tr.2)

/-- Streamlit session state used by the app (source lines 141–146). -/
structure SessionState where
  optimized_xyz : Option String
  trajectory_xyz : Option String
  optimization_complete : Bool
deriving DecidableEq

/-- Python truthiness of an optional string (`None` and `""` are falsy). -/
def truthyStr : Option String → Bool
  | none => false
  | some s => ¬ s.isEmpty

/-- The "Run GFN2-xTB Optimization" button handler (source lines
189–198): run the optimizer; if the optimized text is truthy, store both
results and the completion flag; otherwise leave session state unchanged
and emit the failure message. -/
def run_button_handler (env : XtbEnv) (st : SessionState) :
    SessionState × List String :=
  let r := run_xtb_optimization env
  if truthyStr r.1.1 then
    ({ optimized_xyz := r.1.1, trajectory_xyz := r.1.2,
       optimization_complete := true }, r.2)
  else
    (st, r.2 ++ ["Optimization failed. Please check if xTB is installed correctly."])

/-- Trajectory slider selection (source lines 233–237): index into the
parsed structures and re-serialize with the default comment. -/
def select_trajectory_step (structures : List (List String × List (List ℚ)))
    (step : Nat) : Option String := do
  let p ← structures[step]?
  write_xyz_string p.1 p.2

/-- Statement vocabulary: atom slot `i` does not abort `parse_xyz_string`
(the line exists and is blank, or its tokens 2–4 all parse as floats). -/
def atomLineOk (lines : List String) (i : Nat) : Prop :=
  ∃ l, lines[i]? = some l ∧
    (pyStrip l = "" ∨ ((((pySplit l).drop 1).take 3).mapM pyFloat).isSome)

/-- Statement vocabulary: the elements `parse_xyz_string` extracts from
the given atom slots (one per non-blank line, its first token). -/
def singleAtomsOf (lines : List String) (idxs : List Nat) : List String :=
  idxs.filterMap fun i =>
    (lines[i]?).bind fun l =>
      if pyStrip l = "" then none else (pySplit l).head?

/-- Statement vocabulary: the coordinate rows `parse_xyz_string` extracts
from the given atom slots (tokens 2–4 of each non-blank line, as parsed
floats; fewer if the line has fewer tokens). -/
def singleCoordsOf (lines : List String) (idxs : List Nat) : List (List ℚ) :=
  idxs.filterMap fun i =>
    (lines[i]?).bind fun l =>
      if pyStrip l = "" then none
      else (((pySplit l).drop 1).take 3).mapM pyFloat

/-- Statement vocabulary: a well-formed XYZ block, as a list of lines.
The header parses as the number of atom lines, there is at least one atom
line, no line contains a newline, header and atom lines carry no leading
or trailing whitespace, and every atom line has at least four
whitespace-separated tokens whose tokens 2–4 all parse as floats. -/
def WFBlock (b : List String) : Prop :=
  ∃ hdr cm atomLines, b = hdr :: cm :: atomLines ∧
    pyInt hdr = some (atomLines.length : Int) ∧
    atomLines ≠ [] ∧
    pyStrip hdr = hdr ∧ '\n' ∉ hdr.data ∧ '\n' ∉ cm.data ∧
    ∀ l ∈ atomLines, '\n' ∉ l.data ∧ pyStrip l = l ∧
      4 ≤ (pySplit l).length ∧
      ((((pySplit l).drop 1).take 3).mapM pyFloat).isSome

/-- Statement vocabulary: elements of a block's atom lines. -/
def blockElems (b : List String) : List String :=
  (b.drop 2).map fun l => ((pySplit l).head?).getD ""

/-- Statement vocabulary: parsed coordinate rows of a block's atom
lines. -/
def blockCoords (b : List String) : List (List ℚ) :=
  (b.drop 2).map fun l => (((pySplit l).drop 1).take 3).filterMap pyFloat

/-- Statement vocabulary: the lines of the text `write_xyz_string`
produces — count, comment, then one formatted line per zipped (atom,
coordinate) pair. -/
def writeLines (atoms : List String) (coords : List (List ℚ)) (cmt : String) :
    List String :=
  natRepr atoms.length :: cmt ::
    ((atoms.zip coords).map fun p =>
      p.1 ++ " " ++ fmt6 (p.2.getD 0 0) ++ " " ++ fmt6 (p.2.getD 1 0)
        ++ " " ++ fmt6 (p.2.getD 2 0))

/-! ## Splitting and stripping -/

theorem splitCh_ne_nil (cs : List Char) : splitCh cs ≠ [] := by
  induction cs with
  | nil => simp [splitCh]
  | cons c cs ih =>
    simp only [splitCh]
    by_cases h : c = '\n'
    · simp [h]
    · simp only [if_neg h]
      cases hs : splitCh cs with
      | nil => simp
      | cons l ls => simp

theorem splitCh_no_nl (a : List Char) (h : '\n' ∉ a) : splitCh a = [a] := by
  induction a with
  | nil => rfl
  | cons c cs ih =>
    have hc : c ≠ '\n' := fun hc => h (hc ▸ List.mem_cons_self c cs)
    have hcs : '\n' ∉ cs := fun hm => h (List.mem_cons_of_mem c hm)
    simp only [splitCh, if_neg hc, ih hcs]

theorem splitCh_append_nl (a b : List Char) (h : '\n' ∉ a) :
    splitCh (a ++ '\n' :: b) = a :: splitCh b := by
  induction a with
  | nil => simp [splitCh]
  | cons c cs ih =>
    have hc : c ≠ '\n' := fun hc => h (hc ▸ List.mem_cons_self c cs)
    have hcs : '\n' ∉ cs := fun hm => h (List.mem_cons_of_mem c hm)
    have h2 := ih hcs
    simp only [List.cons_append, splitCh, if_neg hc, List.append_eq, h2]

theorem data_blockText (ls : List String) :
    (blockText ls).data = joinData (ls.map String.data) := by
  induction ls with
  | nil => rfl
  | cons l ls ih =>
    simp only [blockText, joinData, List.map_cons, String.data_append, ih]
    simp [List.append_assoc]

theorem splitCh_joinData (ls : List (List Char)) (h : ∀ l ∈ ls, '\n' ∉ l) :
    splitCh (joinData ls) = ls ++ [[]] := by
  induction ls with
  | nil => rfl
  | cons l ls ih =>
    simp only [joinData]
    rw [splitCh_append_nl l _ (h l (List.mem_cons_self l ls)),
      ih fun x hx => h x (List.mem_cons_of_mem l hx)]
    rfl

theorem joinData_eq_interData (ls : List (List Char)) (h : ls ≠ []) :
    joinData ls = interData ls ++ ['\n'] := by
  induction ls with
  | nil => exact absurd rfl h
  | cons l ls ih =>
    cases ls with
    | nil => rfl
    | cons m ms =>
      have h2 := ih (by simp)
      show l ++ '\n' :: joinData (m :: ms) = (l ++ '\n' :: interData (m :: ms)) ++ ['\n']
      rw [h2]
      simp [List.append_assoc]

theorem splitCh_interData (ls : List (List Char)) (h : ls ≠ [])
    (hnl : ∀ l ∈ ls, '\n' ∉ l) : splitCh (interData ls) = ls := by
  induction ls with
  | nil => exact absurd rfl h
  | cons l ls ih =>
    cases ls with
    | nil => exact splitCh_no_nl l (hnl l (List.mem_cons_self l []))
    | cons m ms =>
      simp only [interData]
      rw [splitCh_append_nl l _ (hnl l (List.mem_cons_self l _)),
        ih (by simp) fun x hx => hnl x (List.mem_cons_of_mem l hx)]

theorem interData_head? (l : List Char) (ls : List (List Char)) (h : l ≠ []) :
    (interData (l :: ls)).head? = l.head? := by
  cases ls with
  | nil => rfl
  | cons m ms =>
    simp only [interData]
    rw [List.head?_append]
    cases l with
    | nil => exact absurd rfl h
    | cons c t => rfl

theorem interData_getLast? (ls : List (List Char)) (l : List Char)
    (hlast : ls.getLast? = some l) (hne : l ≠ []) :
    (interData ls).getLast? = l.getLast? := by
  induction ls with
  | nil => simp at hlast
  | cons x xs ih =>
    cases xs with
    | nil =>
      simp only [List.getLast?_singleton] at hlast
      cases hlast
      rfl
    | cons y ys =>
      have hx : (y :: ys).getLast? = some l := by
        rw [List.getLast?_cons_cons] at hlast; exact hlast
      have hI := ih hx
      obtain ⟨d, hd⟩ : ∃ d, l.getLast? = some d := by
        cases hL : l.getLast? with
        | none => rw [List.getLast?_eq_none_iff] at hL; exact absurd hL hne
        | some d => exact ⟨d, rfl⟩
      show (x ++ '\n' :: interData (y :: ys)).getLast? = l.getLast?
      rw [List.getLast?_append]
      have h3 : ('\n' :: interData (y :: ys)).getLast? = some d := by
        have h4 : '\n' :: interData (y :: ys) = ['\n'] ++ interData (y :: ys) := rfl
        rw [h4, List.getLast?_append, hI, hd]
        rfl
      rw [h3, hd]
      rfl

/-! ## Stripping fixpoints -/

theorem length_dropWhile_le (p : Char → Bool) (l : List Char) :
    (l.dropWhile p).length ≤ l.length := by
  induction l with
  | nil => simp
  | cons c t ih =>
    rw [List.dropWhile_cons]
    by_cases h : p c
    · rw [if_pos h]; exact Nat.le_succ_of_le ih
    · rw [if_neg h]

theorem stripChars_eq_self (cs : List Char) (c d : Char)
    (hh : cs.head? = some c) (hc : isPySpace c = false)
    (hl : cs.getLast? = some d) (hd : isPySpace d = false) :
    stripChars cs = cs := by
  cases cs with
  | nil => simp at hh
  | cons c0 t =>
    have hc' : isPySpace c0 = false := by
      have hcc : c0 = c := by simpa using hh
      rw [hcc]; exact hc
    unfold stripChars
    rw [List.dropWhile_cons, if_neg (by simp [hc'])]
    have hrev : (c0 :: t).reverse.head? = some d := by
      rw [List.head?_reverse]; exact hl
    cases hr : (c0 :: t).reverse with
    | nil => simp at hr
    | cons d0 r =>
      have hd' : isPySpace d0 = false := by
        have hdd : d0 = d := by rw [hr] at hrev; simpa using hrev
        rw [hdd]; exact hd
      rw [List.dropWhile_cons, if_neg (by simp [hd']), ← hr, List.reverse_reverse]

theorem stripChars_append_nl (cs : List Char) (c d : Char)
    (hh : cs.head? = some c) (hc : isPySpace c = false)
    (hl : cs.getLast? = some d) (hd : isPySpace d = false) :
    stripChars (cs ++ ['\n']) = cs := by
  cases cs with
  | nil => simp at hh
  | cons c0 t =>
    have hc' : isPySpace c0 = false := by
      have hcc : c0 = c := by simpa using hh
      rw [hcc]; exact hc
    unfold stripChars
    rw [List.cons_append, List.dropWhile_cons, if_neg (by simp [hc'])]
    have hrev : (c0 :: (t ++ ['\n'])).reverse = '\n' :: (c0 :: t).reverse := by
      simp [List.reverse_cons, List.reverse_append, List.append_assoc]
    rw [hrev, List.dropWhile_cons, if_pos (by decide)]
    have hrevh : (c0 :: t).reverse.head? = some d := by
      rw [List.head?_reverse]; exact hl
    cases hr : (c0 :: t).reverse with
    | nil => simp at hr
    | cons d0 r =>
      have hd' : isPySpace d0 = false := by
        have hdd : d0 = d := by rw [hr] at hrevh; simpa using hrevh
        rw [hdd]; exact hd
      rw [List.dropWhile_cons, if_neg (by simp [hd']), ← hr, List.reverse_reverse]

theorem stripChars_of_all_space (cs : List Char) (h : ∀ c ∈ cs, isPySpace c = true) :
    stripChars cs = [] := by
  unfold stripChars
  rw [List.dropWhile_eq_nil_iff.mpr h]
  simp

theorem exists_not_space_of_stripChars_ne_nil (cs : List Char)
    (h : stripChars cs ≠ []) : ∃ c ∈ cs, isPySpace c = false := by
  by_contra hb
  push_neg at hb
  exact h (stripChars_of_all_space cs fun c hc => by
    have := hb c hc
    cases hx : isPySpace c
    · exact absurd hx this
    · rfl)

theorem head_not_space_of_strip_fix (l : List Char)
    (hfix : stripChars l = l) (hne : l ≠ []) :
    ∃ c t, l = c :: t ∧ isPySpace c = false := by
  cases l with
  | nil => exact absurd rfl hne
  | cons c t =>
    refine ⟨c, t, rfl, ?_⟩
    cases hx : isPySpace c with
    | false => rfl
    | true =>
      exfalso
      have hlen : (stripChars (c :: t)).length < (c :: t).length := by
        unfold stripChars
        rw [List.dropWhile_cons, if_pos hx]
        calc ((List.dropWhile isPySpace ((List.dropWhile isPySpace t).reverse)).reverse).length
            = (List.dropWhile isPySpace ((List.dropWhile isPySpace t).reverse)).length := by
              rw [List.length_reverse]
          _ ≤ (List.dropWhile isPySpace t).reverse.length := length_dropWhile_le _ _
          _ = (List.dropWhile isPySpace t).length := by rw [List.length_reverse]
          _ ≤ t.length := length_dropWhile_le _ _
          _ < (c :: t).length := by simp
      rw [hfix] at hlen
      omega

theorem last_not_space_of_strip_fix (l : List Char)
    (hfix : stripChars l = l) (hne : l ≠ []) :
    ∃ d, l.getLast? = some d ∧ isPySpace d = false := by
  obtain ⟨d, hd⟩ : ∃ d, l.getLast? = some d := by
    cases hL : l.getLast? with
    | none => rw [List.getLast?_eq_none_iff] at hL; exact absurd hL hne
    | some d => exact ⟨d, rfl⟩
  refine ⟨d, hd, ?_⟩
  cases hx : isPySpace d with
  | false => rfl
  | true =>
    exfalso
    -- the front dropWhile must fix l, else lengths already shrink
    have hA : List.dropWhile isPySpace l = l := by
      refine (List.dropWhile_suffix isPySpace).eq_of_length ?_
      have h1 : (stripChars l).length ≤ (List.dropWhile isPySpace l).length := by
        unfold stripChars
        calc ((List.dropWhile isPySpace ((List.dropWhile isPySpace l).reverse)).reverse).length
            = (List.dropWhile isPySpace ((List.dropWhile isPySpace l).reverse)).length := by
              rw [List.length_reverse]
          _ ≤ (List.dropWhile isPySpace l).reverse.length := length_dropWhile_le _ _
          _ = (List.dropWhile isPySpace l).length := by rw [List.length_reverse]
      have h2 := length_dropWhile_le isPySpace l
      rw [hfix] at h1
      omega
    -- now the back dropWhile removes d
    have hrev : l.reverse.head? = some d := by rw [List.head?_reverse]; exact hd
    cases hr : l.reverse with
    | nil => rw [List.reverse_eq_nil_iff] at hr; exact hne hr
    | cons d0 r =>
      have hd0 : d0 = d := by rw [hr] at hrev; simpa using hrev
      subst hd0
      have hlen : (stripChars l).length < l.length := by
        unfold stripChars
        rw [hA, hr, List.dropWhile_cons, if_pos hx]
        calc ((List.dropWhile isPySpace r).reverse).length
            = (List.dropWhile isPySpace r).length := by rw [List.length_reverse]
          _ ≤ r.length := length_dropWhile_le _ _
          _ < l.length := by
              have : l.reverse.length = l.length := List.length_reverse l
              rw [hr] at this
              simp at this
              omega
      rw [hfix] at hlen
      omega

/-! ## Text-to-lines bridges -/

theorem map_mk_data (ls : List String) : ls.map (String.mk ∘ String.data) = ls := by
  induction ls with
  | nil => rfl
  | cons l ls ih =>
    rw [List.map_cons, ih]
    exact congrArg (fun x => x :: ls) rfl

theorem splitLines_blockText (ls : List String)
    (hnl : ∀ l ∈ ls, '\n' ∉ l.data) :
    splitLines (blockText ls) = ls ++ [""] := by
  unfold splitLines
  rw [data_blockText, splitCh_joinData _ (by
    intro x hx
    obtain ⟨l, hl, rfl⟩ := List.mem_map.mp hx
    exact hnl l hl)]
  rw [List.map_append, List.map_map, map_mk_data]
  rfl

theorem splitLines_pyStrip_blockText (ls : List String)
    (hne : ls ≠ [])
    (hnl : ∀ l ∈ ls, '\n' ∉ l.data)
    (hhead : ∃ c t, (ls.headD "").data = c :: t ∧ isPySpace c = false)
    (hlast : ∃ llast, ls.getLast? = some llast ∧
      ∃ d, llast.data.getLast? = some d ∧ isPySpace d = false) :
    splitLines (pyStrip (blockText ls)) = ls := by
  cases ls with
  | nil => exact absurd rfl hne
  | cons l0 rest =>
    obtain ⟨c, t, hct, hc⟩ := hhead
    obtain ⟨llast, hll, d, hdl, hd⟩ := hlast
    simp only [List.headD_cons] at hct
    have hmapnl : ∀ x ∈ (l0 :: rest).map String.data, '\n' ∉ x := by
      intro x hx
      obtain ⟨l, hl, rfl⟩ := List.mem_map.mp hx
      exact hnl l hl
    have hdata : (blockText (l0 :: rest)).data
        = interData ((l0 :: rest).map String.data) ++ ['\n'] := by
      rw [data_blockText, joinData_eq_interData _ (by simp)]
    have hihead : (interData ((l0 :: rest).map String.data)).head? = some c := by
      rw [List.map_cons, interData_head? _ _ (by rw [hct]; simp), hct]
      rfl
    have hmaplast : ((l0 :: rest).map String.data).getLast? = some llast.data := by
      rw [List.getLast?_map, hll]
      rfl
    have hllne : llast.data ≠ [] := by
      intro hnil
      rw [hnil] at hdl
      simp at hdl
    have hilast : (interData ((l0 :: rest).map String.data)).getLast? = some d := by
      rw [interData_getLast? _ llast.data hmaplast hllne, hdl]
    have hstrip : stripChars (blockText (l0 :: rest)).data
        = interData ((l0 :: rest).map String.data) := by
      rw [hdata]
      exact stripChars_append_nl _ c d hihead hc
        (by rw [interData_getLast? _ llast.data hmaplast hllne]; exact hdl) hd
    show ((splitCh (pyStrip (blockText (l0 :: rest))).data).map String.mk) = l0 :: rest
    have hpd : (pyStrip (blockText (l0 :: rest))).data
        = interData ((l0 :: rest).map String.data) := hstrip
    rw [hpd, splitCh_interData _ (by simp) hmapnl, List.map_map, map_mk_data]

/-! ## Tokeniser facts -/

theorem tokensAux_ne_nil_of_cur (cur cs : List Char) (h : cur ≠ []) :
    tokensAux cur cs ≠ [] := by
  induction cs generalizing cur with
  | nil =>
    simp only [tokensAux]
    rw [if_neg (by simpa [List.isEmpty_iff] using h)]
    simp
  | cons c cs ih =>
    simp only [tokensAux]
    by_cases hws : isPySpace c
    · rw [if_pos hws, if_neg (by simpa [List.isEmpty_iff] using h)]
      simp
    · rw [if_neg hws]
      exact ih (c :: cur) (by simp)

theorem tokensAux_ne_nil (cs : List Char) (cur : List Char)
    (h : ∃ c ∈ cs, isPySpace c = false) : tokensAux cur cs ≠ [] := by
  induction cs generalizing cur with
  | nil => simp at h
  | cons c cs ih =>
    simp only [tokensAux]
    by_cases hws : isPySpace c
    · obtain ⟨x, hx, hxf⟩ := h
      have hxcs : x ∈ cs := by
        cases List.mem_cons.mp hx with
        | inl heq => rw [heq] at hxf; rw [hxf] at hws; cases hws
        | inr hm => exact hm
      rw [if_pos hws]
      by_cases hcur : cur.isEmpty
      · rw [if_pos hcur]; exact ih [] ⟨x, hxcs, hxf⟩
      · rw [if_neg hcur]; simp
    · rw [if_neg hws]
      exact tokensAux_ne_nil_of_cur (c :: cur) cs (by simp)

theorem tokensAux_token_props (cs : List Char) (cur : List Char)
    (hcur : ∀ c ∈ cur, isPySpace c = false) :
    ∀ t ∈ tokensAux cur cs, t ≠ [] ∧ ∀ c ∈ t, isPySpace c = false := by
  induction cs generalizing cur with
  | nil =>
    intro t ht
    simp only [tokensAux] at ht
    by_cases h : cur.isEmpty
    · rw [if_pos h] at ht; simp at ht
    · rw [if_neg h] at ht
      simp only [List.mem_singleton] at ht
      subst ht
      refine ⟨by simpa [List.isEmpty_iff] using h, ?_⟩
      intro c hc
      exact hcur c (by simpa using hc)
  | cons c cs ih =>
    intro t ht
    simp only [tokensAux] at ht
    by_cases hws : isPySpace c
    · rw [if_pos hws] at ht
      by_cases h : cur.isEmpty
      · rw [if_pos h] at ht
        exact ih [] (by simp) t ht
      · rw [if_neg h] at ht
        cases List.mem_cons.mp ht with
        | inl heq =>
          subst heq
          refine ⟨by simpa [List.isEmpty_iff] using h, ?_⟩
          intro x hx
          exact hcur x (by simpa using hx)
        | inr hm => exact ih [] (by simp) t hm
    · rw [if_neg hws] at ht
      refine ih (c :: cur) ?_ t ht
      intro x hx
      cases List.mem_cons.mp hx with
      | inl heq =>
        subst heq
        cases hxx : isPySpace x
        · rfl
        · exact absurd hxx hws
      | inr hm => exact hcur x hm

theorem pySplit_token_props (s : String) :
    ∀ t ∈ pySplit s, t ≠ "" ∧ ∀ c ∈ t.data, isPySpace c = false := by
  intro t ht
  obtain ⟨x, hx, rfl⟩ := List.mem_map.mp ht
  obtain ⟨h1, h2⟩ := tokensAux_token_props s.data [] (by simp) x hx
  constructor
  · intro hs
    apply h1
    have : (String.mk x).data = x := rfl
    rw [hs] at this
    exact this.symm
  · exact h2

theorem tokensAux_append_space (w : List Char) : ∀ (cur cs : List Char),
    (∀ c ∈ w, isPySpace c = false) → cur.reverse ++ w ≠ [] →
    tokensAux cur (w ++ ' ' :: cs) = (cur.reverse ++ w) :: tokensAux [] cs := by
  induction w with
  | nil =>
    intro cur cs _ hne
    simp only [List.append_nil] at hne ⊢
    simp only [List.nil_append, tokensAux]
    rw [if_pos (by decide),
      if_neg (by simp [List.isEmpty_iff]; intro h; rw [h] at hne; simp at hne)]
  | cons a w ih =>
    intro cur cs hw hne
    have ha : isPySpace a = false := hw a (List.mem_cons_self a w)
    simp only [List.cons_append, tokensAux, List.append_eq]
    rw [if_neg (by simp [ha]),
      ih (a :: cur) cs (fun c hc => hw c (List.mem_cons_of_mem a hc)) (by simp)]
    simp [List.append_assoc]

theorem tokensAux_last_token (w : List Char) : ∀ cur,
    (∀ c ∈ w, isPySpace c = false) → cur.reverse ++ w ≠ [] →
    tokensAux cur w = [cur.reverse ++ w] := by
  induction w with
  | nil =>
    intro cur _ hne
    simp only [List.append_nil] at hne ⊢
    simp only [tokensAux]
    rw [if_neg (by simp [List.isEmpty_iff]; intro h; rw [h] at hne; simp at hne)]
  | cons a w ih =>
    intro cur hw hne
    have ha : isPySpace a = false := hw a (List.mem_cons_self a w)
    simp only [tokensAux]
    rw [if_neg (by simp [ha]),
      ih (a :: cur) (fun c hc => hw c (List.mem_cons_of_mem a hc)) (by simp)]
    simp [List.append_assoc]

/-! ## Decimal digits -/

theorem digitChar_isDigit (n : Nat) (h : n < 10) : (digitChar n).isDigit = true := by
  interval_cases n <;> decide

theorem digitVal_digitChar (n : Nat) (h : n < 10) : digitVal (digitChar n) = n := by
  interval_cases n <;> decide

theorem not_space_of_digit (c : Char) (h : c.isDigit = true) : isPySpace c = false := by
  cases hx : isPySpace c with
  | false => rfl
  | true =>
    exfalso
    simp only [isPySpace, Bool.or_eq_true, decide_eq_true_eq] at hx
    rcases hx with ((((h1 | h1) | h1) | h1) | h1) | h1 <;>
      (subst h1; exact absurd h (by decide))

theorem digit_ne_special (c : Char) (h : c.isDigit = true) :
    c ≠ '+' ∧ c ≠ '-' ∧ c ≠ '.' ∧ c ≠ '\n' ∧ c ≠ 'e' ∧ c ≠ 'E' := by
  refine ⟨?_, ?_, ?_, ?_, ?_, ?_⟩ <;>
    (intro h1; subst h1; exact absurd h (by decide))

theorem natReprAux_all_digit (f : Nat) : ∀ n, n < f →
    ∀ c ∈ natReprAux f n, c.isDigit = true := by
  induction f with
  | zero => intro n h; omega
  | succ f ih =>
    intro n h c hc
    simp only [natReprAux] at hc
    by_cases h10 : n < 10
    · rw [if_pos h10] at hc
      simp only [List.mem_singleton] at hc
      subst hc
      exact digitChar_isDigit n h10
    · rw [if_neg h10] at hc
      rcases List.mem_append.mp hc with hm | hm
      · have hdiv : n / 10 < n := Nat.div_lt_self (by omega) (by omega)
        exact ih (n / 10) (by omega) c hm
      · simp only [List.mem_singleton] at hm
        subst hm
        exact digitChar_isDigit (n % 10) (Nat.mod_lt _ (by omega))

theorem natReprAux_ne_nil (f n : Nat) (h : n < f) : natReprAux f n ≠ [] := by
  cases f with
  | zero => omega
  | succ f =>
    simp only [natReprAux]
    by_cases h10 : n < 10
    · rw [if_pos h10]; simp
    · rw [if_neg h10]; simp

theorem digitsNat_append_one (ds : List Char) (c : Char) :
    digitsNat (ds ++ [c]) = 10 * digitsNat ds + digitVal c := by
  unfold digitsNat
  rw [List.foldl_append]
  rfl

theorem digitsNat_natReprAux (f : Nat) : ∀ n, n < f →
    digitsNat (natReprAux f n) = n := by
  induction f with
  | zero => intro n h; omega
  | succ f ih =>
    intro n h
    simp only [natReprAux]
    by_cases h10 : n < 10
    · rw [if_pos h10]
      have : digitsNat [digitChar n] = digitVal (digitChar n) := by
        unfold digitsNat
        simp
      rw [this, digitVal_digitChar n h10]
    · rw [if_neg h10, digitsNat_append_one]
      have hdiv : n / 10 < n := Nat.div_lt_self (by omega) (by omega)
      rw [ih (n / 10) (by omega), digitVal_digitChar (n % 10) (Nat.mod_lt _ (by omega))]
      omega

theorem natReprAux_length_le (f : Nat) : ∀ n k, n < f → n < 10 ^ k → 1 ≤ k →
    (natReprAux f n).length ≤ k := by
  induction f with
  | zero => intro n k h; omega
  | succ f ih =>
    intro n k h hk h1
    simp only [natReprAux]
    by_cases h10 : n < 10
    · rw [if_pos h10]; simpa using h1
    · rw [if_neg h10, List.length_append, List.length_singleton]
      have hk2 : 2 ≤ k := by
        by_contra hb
        have hk1 : k = 1 := by omega
        rw [hk1, pow_one] at hk
        omega
      have hdiv : n / 10 < n := Nat.div_lt_self (by omega) (by omega)
      have hdivk : n / 10 < 10 ^ (k - 1) := by
        rw [Nat.div_lt_iff_lt_mul (by omega : 0 < 10)]
        have hpow : 10 ^ (k - 1) * 10 = 10 ^ k := by
          rw [← pow_succ]
          congr 1
          omega
        omega
      have := ih (n / 10) (k - 1) (by omega) hdivk (by omega)
      omega

theorem stripChars_all_digits (ds : List Char) (hne : ds ≠ [])
    (h : ∀ c ∈ ds, c.isDigit = true) : stripChars ds = ds := by
  cases ds with
  | nil => exact absurd rfl hne
  | cons c t =>
    obtain ⟨d, hd⟩ : ∃ d, (c :: t).getLast? = some d := by
      cases hL : (c :: t).getLast? with
      | none => rw [List.getLast?_eq_none_iff] at hL; cases hL
      | some d => exact ⟨d, rfl⟩
    have hdm : d ∈ c :: t := List.mem_of_mem_getLast? hd
    exact stripChars_eq_self _ c d rfl
      (not_space_of_digit c (h c (List.mem_cons_self c t)))
      hd (not_space_of_digit d (h d hdm))

theorem pyIntCh_digits (ds : List Char) (hne : ds ≠ [])
    (h : ∀ c ∈ ds, c.isDigit = true) :
    pyIntCh ds = some ((digitsNat ds : Nat) : Int) := by
  unfold pyIntCh
  rw [stripChars_all_digits ds hne h]
  cases ds with
  | nil => exact absurd rfl hne
  | cons c rest =>
    have hc := h c (List.mem_cons_self c rest)
    show (if c = '+' then _ else if c = '-' then _
      else (digitsToNat (c :: rest)).map Int.ofNat) = _
    rw [if_neg (digit_ne_special c hc).1, if_neg (digit_ne_special c hc).2.1]
    show ((if (c :: rest).all Char.isDigit then some (digitsNat (c :: rest)) else none).map
      Int.ofNat) = _
    rw [if_pos (List.all_eq_true.mpr h)]
    rfl

theorem pyInt_natRepr (n : Nat) : pyInt (natRepr n) = some ((n : Nat) : Int) := by
  show pyIntCh (natReprAux (n + 1) n) = some ((n : Nat) : Int)
  rw [pyIntCh_digits _ (natReprAux_ne_nil _ _ (by omega))
    (natReprAux_all_digit _ n (by omega)), digitsNat_natReprAux _ n (by omega)]

/-! ## Reparsing fixed-point decimals -/

theorem readDigits_split (ds rest : List Char) (h : ∀ c ∈ ds, c.isDigit = true)
    (hr : rest = [] ∨ ∃ c t, rest = c :: t ∧ c.isDigit = false) :
    readDigits (ds ++ rest) = (ds, rest) := by
  induction ds with
  | nil =>
    rcases hr with rfl | ⟨c, t, rfl, hc⟩
    · rfl
    · simp only [List.nil_append, readDigits]
      rw [if_neg (by simp [hc])]
  | cons a ds ih =>
    have ha := h a (List.mem_cons_self a ds)
    simp only [List.cons_append, readDigits, List.append_eq]
    rw [if_pos ha, ih fun c hc => h c (List.mem_cons_of_mem a hc)]

theorem digitsNat_replicate_zero (k : Nat) (ds : List Char) :
    digitsNat (List.replicate k '0' ++ ds) = digitsNat ds := by
  induction k with
  | zero => rfl
  | succ k ih =>
    have h0 : digitsNat (List.replicate (k + 1) '0' ++ ds)
        = List.foldl (fun a c => 10 * a + digitVal c) (10 * 0 + digitVal '0')
            (List.replicate k '0' ++ ds) := by
      rw [List.replicate_succ, List.cons_append]
      rfl
    rw [h0, show 10 * 0 + digitVal '0' = 0 from by decide]
    exact ih

theorem pyFloatCh_decimal (sgn ips pad frs : List Char) (s : ℚ)
    (hsgn : (sgn = [] ∧ s = 1) ∨ (sgn = ['-'] ∧ s = -1))
    (hipne : ips ≠ []) (hipd : ∀ c ∈ ips, c.isDigit = true)
    (hpadd : ∀ c ∈ pad, c.isDigit = true)
    (hfrne : frs ≠ []) (hfrd : ∀ c ∈ frs, c.isDigit = true) :
    pyFloatCh (sgn ++ (ips ++ '.' :: (pad ++ frs)))
      = some (s * ((digitsNat ips : ℚ)
          + (digitsNat (pad ++ frs) : ℚ) / 10 ^ (pad ++ frs).length)) := by
  obtain ⟨a, ipt, rfl⟩ : ∃ a t, ips = a :: t := by
    cases ips with
    | nil => exact absurd rfl hipne
    | cons a t => exact ⟨a, t, rfl⟩
  obtain ⟨d, hd⟩ : ∃ d, frs.getLast? = some d := by
    cases hL : frs.getLast? with
    | none => rw [List.getLast?_eq_none_iff] at hL; exact absurd hL hfrne
    | some d => exact ⟨d, rfl⟩
  have hdd : d.isDigit = true := hfrd d (List.mem_of_mem_getLast? hd)
  have hlast : (sgn ++ ((a :: ipt) ++ '.' :: (pad ++ frs))).getLast? = some d := by
    have h1 : (pad ++ frs).getLast? = some d := by
      rw [List.getLast?_append, hd]
      rfl
    have h2 : ('.' :: (pad ++ frs)).getLast? = some d := by
      have : '.' :: (pad ++ frs) = ['.'] ++ (pad ++ frs) := rfl
      rw [this, List.getLast?_append, h1]
      rfl
    rw [List.getLast?_append, List.getLast?_append, h2]
    rfl
  have hstrip : stripChars (sgn ++ ((a :: ipt) ++ '.' :: (pad ++ frs)))
      = sgn ++ ((a :: ipt) ++ '.' :: (pad ++ frs)) := by
    rcases hsgn with ⟨rfl, _⟩ | ⟨rfl, _⟩
    · exact stripChars_eq_self _ a d rfl
        (not_space_of_digit a (hipd a (List.mem_cons_self a ipt)))
        hlast (not_space_of_digit d hdd)
    · exact stripChars_eq_self _ '-' d rfl (by decide) hlast (not_space_of_digit d hdd)
  have hrd1 : readDigits ((a :: ipt) ++ '.' :: (pad ++ frs))
      = (a :: ipt, '.' :: (pad ++ frs)) :=
    readDigits_split _ _ hipd (Or.inr ⟨'.', pad ++ frs, rfl, by decide⟩)
  have hrd2 : readDigits (pad ++ frs) = (pad ++ frs, []) := by
    have h3 : readDigits ((pad ++ frs) ++ []) = (pad ++ frs, []) :=
      readDigits_split _ _ (by
        intro c hc
        rcases List.mem_append.mp hc with hm | hm
        · exact hpadd c hm
        · exact hfrd c hm) (Or.inl rfl)
    simpa using h3
  have hsign : readSignQ (sgn ++ ((a :: ipt) ++ '.' :: (pad ++ frs)))
      = (s, (a :: ipt) ++ '.' :: (pad ++ frs)) := by
    rcases hsgn with ⟨rfl, rfl⟩ | ⟨rfl, rfl⟩
    · show readSignQ (a :: (ipt ++ '.' :: (pad ++ frs))) = _
      have hane := digit_ne_special a (hipd a (List.mem_cons_self a ipt))
      simp only [readSignQ]
      rw [if_neg hane.1, if_neg hane.2.1]
      rfl
    · show readSignQ ('-' :: ((a :: ipt) ++ '.' :: (pad ++ frs))) = _
      simp [readSignQ]
  unfold pyFloatCh
  rw [hstrip, hsign]
  simp only [hrd1, hrd2]
  show (if (a :: ipt) = [] ∧ pad ++ frs = [] then none else _) = _
  rw [if_neg (by simp)]
  show (expVal []).map _ = _
  simp only [expVal]
  unfold digitsValQ
  simp [mul_one]

theorem round_nonneg_of (q : ℚ) (h : 0 ≤ q) : 0 ≤ round q := by
  rw [round_eq]
  exact Int.floor_nonneg.mpr (by linarith)

theorem round_nonpos_of (q : ℚ) (h : q < 0) : round q ≤ 0 := by
  rw [round_eq]
  have : ⌊q + 1 / 2⌋ < 1 := Int.floor_lt.mpr (by push_cast; linarith)
  omega

theorem pyFloat_fmt6 (q : ℚ) :
    pyFloat (fmt6 q) = some (((round (q * 1000000) : ℤ) : ℚ) / 1000000) := by
  have hfr6 : (round (q * 1000000)).natAbs % 1000000 < 10 ^ 6 := by
    have := Nat.mod_lt (round (q * 1000000)).natAbs (show 0 < 1000000 by norm_num)
    norm_num
    omega
  have hdata : (fmt6 q).data
      = (if q < 0 then ['-'] else [])
        ++ (natReprAux ((round (q * 1000000)).natAbs / 1000000 + 1)
            ((round (q * 1000000)).natAbs / 1000000)
          ++ '.' :: (List.replicate
              (6 - (natReprAux ((round (q * 1000000)).natAbs % 1000000 + 1)
                ((round (q * 1000000)).natAbs % 1000000)).length) '0'
            ++ natReprAux ((round (q * 1000000)).natAbs % 1000000 + 1)
                ((round (q * 1000000)).natAbs % 1000000))) := by
    show ((if q < 0 then "-" else "") ++ natRepr _ ++ "." ++ String.mk _).data = _
    by_cases hq : q < 0
    · rw [if_pos hq, if_pos hq]
      simp [String.data_append, natRepr, List.append_assoc]
    · rw [if_neg hq, if_neg hq]
      simp [String.data_append, natRepr, List.append_assoc]
  show pyFloatCh (fmt6 q).data = _
  rw [hdata, pyFloatCh_decimal _ _ _ _ (if q < 0 then -1 else 1)
    (by
      by_cases hq : q < 0
      · right; rw [if_pos hq, if_pos hq]; exact ⟨rfl, rfl⟩
      · left; rw [if_neg hq, if_neg hq]; exact ⟨rfl, rfl⟩)
    (natReprAux_ne_nil _ _ (by omega))
    (natReprAux_all_digit _ _ (by omega))
    (by intro c hc; rw [List.eq_of_mem_replicate hc]; decide)
    (natReprAux_ne_nil _ _ (by omega))
    (natReprAux_all_digit _ _ (by omega))]
  congr 1
  rw [digitsNat_replicate_zero, digitsNat_natReprAux _ _ (by omega),
    digitsNat_natReprAux _ _ (by omega)]
  rw [List.length_append, List.length_replicate]
  have hlen : (natReprAux ((round (q * 1000000)).natAbs % 1000000 + 1)
      ((round (q * 1000000)).natAbs % 1000000)).length ≤ 6 :=
    natReprAux_length_le _ _ 6 (by omega) hfr6 (by omega)
  have hlen6 : 6 - (natReprAux ((round (q * 1000000)).natAbs % 1000000 + 1)
      ((round (q * 1000000)).natAbs % 1000000)).length
      + (natReprAux ((round (q * 1000000)).natAbs % 1000000 + 1)
      ((round (q * 1000000)).natAbs % 1000000)).length = 6 := by omega
  rw [hlen6]
  have hdm : 1000000 * ((round (q * 1000000)).natAbs / 1000000)
      + (round (q * 1000000)).natAbs % 1000000 = (round (q * 1000000)).natAbs :=
    Nat.div_add_mod _ _
  have hsum : ((((round (q * 1000000)).natAbs / 1000000 : ℕ) : ℚ) * 1000000
      + (((round (q * 1000000)).natAbs % 1000000 : ℕ) : ℚ))
      = (((round (q * 1000000)).natAbs : ℕ) : ℚ) := by
    have h7 := congrArg (fun k : ℕ => (k : ℚ)) hdm
    push_cast at h7
    linarith [h7]
  have h10 : ((10 : ℚ) ^ 6) = 1000000 := by norm_num
  rw [h10]
  by_cases hq : q < 0
  · rw [if_pos hq]
    have hm : round (q * 1000000) ≤ 0 :=
      round_nonpos_of _ (by nlinarith)
    have hcast : ((round (q * 1000000)).natAbs : ℚ) = -((round (q * 1000000) : ℤ) : ℚ) := by
      rw [Int.cast_natAbs, abs_of_nonpos hm]
      push_cast
      ring
    have h8 : ((round (q * 1000000) : ℤ) : ℚ)
        = -(((round (q * 1000000)).natAbs : ℕ) : ℚ) := by linarith [hcast]
    rw [h8, ← hsum]
    field_simp
  · rw [if_neg hq]
    have hm : 0 ≤ round (q * 1000000) :=
      round_nonneg_of _ (by nlinarith [le_of_not_lt hq])
    have hcast : ((round (q * 1000000)).natAbs : ℚ) = ((round (q * 1000000) : ℤ) : ℚ) := by
      rw [Int.cast_natAbs, abs_of_nonneg hm]
    rw [← hcast, ← hsum]
    field_simp

theorem round_div_bound (q : ℚ) :
    |((round (q * 1000000) : ℤ) : ℚ) / 1000000 - q| ≤ 1 / 2000000 := by
  have h := abs_sub_round (q * 1000000)
  have h2 : ((round (q * 1000000) : ℤ) : ℚ) / 1000000 - q
      = -((q * 1000000 - ((round (q * 1000000) : ℤ) : ℚ)) / 1000000) := by ring
  rw [h2, abs_neg, abs_div, abs_of_pos (by norm_num : (0 : ℚ) < 1000000)]
  calc |q * 1000000 - ((round (q * 1000000) : ℤ) : ℚ)| / 1000000
      ≤ (1 / 2) / 1000000 := by
        apply (div_le_div_iff_of_pos_right (by norm_num : (0 : ℚ) < 1000000)).mpr
        exact h
    _ = 1 / 2000000 := by norm_num

/-! ## Characters of rendered numbers -/

theorem fmt6_data_decomp (q : ℚ) :
    ∃ sgn ips frs : List Char,
      (fmt6 q).data = sgn ++ (ips ++ '.' :: (List.replicate (6 - frs.length) '0' ++ frs)) ∧
      (sgn = [] ∨ sgn = ['-']) ∧
      ips ≠ [] ∧ (∀ c ∈ ips, c.isDigit = true) ∧
      frs ≠ [] ∧ (∀ c ∈ frs, c.isDigit = true) := by
  refine ⟨if q < 0 then ['-'] else [],
    natReprAux ((round (q * 1000000)).natAbs / 1000000 + 1)
      ((round (q * 1000000)).natAbs / 1000000),
    natReprAux ((round (q * 1000000)).natAbs % 1000000 + 1)
      ((round (q * 1000000)).natAbs % 1000000),
    ?_, ?_, ?_, ?_, ?_, ?_⟩
  · show ((if q < 0 then "-" else "") ++ natRepr _ ++ "." ++ String.mk _).data = _
    by_cases hq : q < 0
    · rw [if_pos hq, if_pos hq]
      simp [String.data_append, natRepr, List.append_assoc]
    · rw [if_neg hq, if_neg hq]
      simp [String.data_append, natRepr, List.append_assoc]
  · by_cases hq : q < 0
    · right; rw [if_pos hq]
    · left; rw [if_neg hq]
  · exact natReprAux_ne_nil _ _ (by omega)
  · exact natReprAux_all_digit _ _ (by omega)
  · exact natReprAux_ne_nil _ _ (by omega)
  · exact natReprAux_all_digit _ _ (by omega)

theorem fmt6_not_space (q : ℚ) : ∀ c ∈ (fmt6 q).data, isPySpace c = false := by
  obtain ⟨sgn, ips, frs, hdata, hsgn, _, hipd, _, hfrd⟩ := fmt6_data_decomp q
  intro c hc
  rw [hdata] at hc
  rcases List.mem_append.mp hc with hm | hm
  · rcases hsgn with rfl | rfl
    · simp at hm
    · simp only [List.mem_singleton] at hm
      subst hm
      decide
  · rcases List.mem_append.mp hm with hm2 | hm2
    · exact not_space_of_digit c (hipd c hm2)
    · rcases List.mem_cons.mp hm2 with rfl | hm3
      · decide
      · rcases List.mem_append.mp hm3 with hm4 | hm4
        · rw [List.eq_of_mem_replicate hm4]; decide
        · exact not_space_of_digit c (hfrd c hm4)

theorem fmt6_no_nl (q : ℚ) : '\n' ∉ (fmt6 q).data := by
  intro h
  have := fmt6_not_space q '\n' h
  exact absurd this (by decide)

theorem fmt6_ne_nil (q : ℚ) : (fmt6 q).data ≠ [] := by
  obtain ⟨sgn, ips, frs, hdata, _, hipne, _, _, _⟩ := fmt6_data_decomp q
  rw [hdata]
  intro h
  rcases List.append_eq_nil.mp h with ⟨_, h2⟩
  rcases List.append_eq_nil.mp h2 with ⟨_, h3⟩
  cases h3

theorem fmt6_last_digit (q : ℚ) :
    ∃ d, (fmt6 q).data.getLast? = some d ∧ d.isDigit = true := by
  obtain ⟨sgn, ips, frs, hdata, _, _, _, hfrne, hfrd⟩ := fmt6_data_decomp q
  obtain ⟨d, hd⟩ : ∃ d, frs.getLast? = some d := by
    cases hL : frs.getLast? with
    | none => rw [List.getLast?_eq_none_iff] at hL; exact absurd hL hfrne
    | some d => exact ⟨d, rfl⟩
  refine ⟨d, ?_, hfrd d (List.mem_of_mem_getLast? hd)⟩
  rw [hdata, List.getLast?_append, List.getLast?_append]
  have h2 : ('.' :: (List.replicate (6 - frs.length) '0' ++ frs)).getLast? = some d := by
    have h3 : '.' :: (List.replicate (6 - frs.length) '0' ++ frs)
        = ['.'] ++ (List.replicate (6 - frs.length) '0' ++ frs) := rfl
    rw [h3, List.getLast?_append, List.getLast?_append, hd]
    rfl
  rw [h2]
  rfl

theorem natRepr_all_digit (n : Nat) : ∀ c ∈ (natRepr n).data, c.isDigit = true :=
  natReprAux_all_digit _ n (by omega)

theorem natRepr_no_nl (n : Nat) : '\n' ∉ (natRepr n).data := by
  intro h
  have := natRepr_all_digit n '\n' h
  exact absurd this (by decide)

theorem natRepr_head_digit (n : Nat) :
    ∃ c t, (natRepr n).data = c :: t ∧ c.isDigit = true := by
  cases hc : (natRepr n).data with
  | nil => exact absurd hc (natReprAux_ne_nil _ n (by omega))
  | cons c t =>
    refine ⟨c, t, rfl, ?_⟩
    exact natRepr_all_digit n c (by rw [hc]; exact List.mem_cons_self c t)

/-! ## Option mapM facts -/

theorem optionMapM_length {α β : Type} (f : α → Option β) :
    ∀ (l : List α) (r : List β), l.mapM f = some r → r.length = l.length := by
  intro l
  induction l with
  | nil =>
    intro r h
    simp only [List.mapM_nil] at h
    cases h
    rfl
  | cons a l ih =>
    intro r h
    rw [List.mapM_cons] at h
    cases hfa : f a with
    | none => rw [hfa] at h; simp at h
    | some b =>
      rw [hfa] at h
      cases hml : l.mapM f with
      | none => rw [hml] at h; simp at h
      | some bs =>
        rw [hml] at h
        simp only [Option.bind_eq_bind, Option.some_bind, Option.pure_def,
          Option.some.injEq] at h
        subst h
        simp [ih bs hml]

theorem optionMapM_isSome {α β : Type} (f : α → Option β) :
    ∀ l : List α, (l.mapM f).isSome = true ↔ ∀ x ∈ l, (f x).isSome = true := by
  intro l
  induction l with
  | nil =>
    rw [List.mapM_nil]
    simp
  | cons a l ih =>
    rw [List.mapM_cons]
    constructor
    · intro h x hx
      cases hfa : f a with
      | none => rw [hfa] at h; simp at h
      | some b =>
        cases hml : l.mapM f with
        | none => rw [hfa, hml] at h; simp at h
        | some bs =>
          rcases List.mem_cons.mp hx with rfl | hm
          · rw [hfa]; rfl
          · exact (ih.mp (by rw [hml]; rfl)) x hm
    · intro h
      cases hfa : f a with
      | none =>
        have := h a (List.mem_cons_self a l)
        rw [hfa] at this
        cases this
      | some b =>
        cases hml : l.mapM f with
        | none =>
          have := ih.mpr fun x hx => h x (List.mem_cons_of_mem a hx)
          rw [hml] at this
          cases this
        | some bs => simp

theorem optionMapM_filterMap {α β : Type} (f : α → Option β) :
    ∀ (l : List α) (r : List β), l.mapM f = some r → l.filterMap f = r := by
  intro l
  induction l with
  | nil =>
    intro r h
    simp only [List.mapM_nil] at h
    cases h
    rfl
  | cons a l ih =>
    intro r h
    rw [List.mapM_cons] at h
    cases hfa : f a with
    | none => rw [hfa] at h; simp at h
    | some b =>
      rw [hfa] at h
      cases hml : l.mapM f with
      | none => rw [hml] at h; simp at h
      | some bs =>
        rw [hml] at h
        simp only [Option.bind_eq_bind, Option.some_bind, Option.pure_def,
          Option.some.injEq] at h
        subst h
        rw [List.filterMap_cons, hfa, ih bs hml]

/-! ## Index and drop helpers -/

theorem getElem?_of_drop_cons (l : List String) (i : Nat) (x : String)
    (xs : List String) (h : l.drop i = x :: xs) : l[i]? = some x := by
  have h2 := List.getElem?_drop l i 0
  rw [h] at h2
  simpa using h2.symm

theorem drop_succ_of_drop_cons (l : List String) (i : Nat) (x : String)
    (xs : List String) (h : l.drop i = x :: xs) : l.drop (i + 1) = xs := by
  have h2 := List.drop_drop 1 i l
  rw [h] at h2
  simpa using h2.symm

/-! ## Atom-loop characterisation -/

theorem pySplit_head_of_nonblank (l : String) (h : pyStrip l ≠ "") :
    ∃ e, (pySplit l).head? = some e := by
  have h2 : stripChars l.data ≠ [] := by
    intro h3
    apply h
    show String.mk (stripChars l.data) = ""
    rw [h3]
  obtain ⟨c, hc, hcf⟩ := exists_not_space_of_stripChars_ne_nil _ h2
  have h4 : tokensAux [] l.data ≠ [] := tokensAux_ne_nil _ [] ⟨c, hc, hcf⟩
  cases ht : tokensAux [] l.data with
  | nil => exact absurd ht h4
  | cons t ts =>
    refine ⟨String.mk t, ?_⟩
    unfold pySplit
    rw [ht]
    rfl

theorem parseAtoms_eq (lines : List String) :
    ∀ (idxs : List Nat) (p : List String × List (List ℚ)),
      parseAtoms lines idxs = some p →
      p = (singleAtomsOf lines idxs, singleCoordsOf lines idxs) := by
  intro idxs
  induction idxs with
  | nil =>
    intro p h
    cases h
    rfl
  | cons i rest ih =>
    intro p h
    unfold parseAtoms at h
    unfold singleAtomsOf singleCoordsOf
    rw [List.filterMap_cons, List.filterMap_cons]
    cases hget : lines[i]? with
    | none => rw [hget] at h; simp at h
    | some l =>
      rw [hget] at h
      simp only [Option.bind_eq_bind, Option.some_bind] at h
      by_cases hb : pyStrip l = ""
      · rw [if_pos hb] at h
        have := ih p h
        simp only [Option.some_bind, if_pos hb, Option.bind_none]
        exact this
      · rw [if_neg hb] at h
        simp only [Option.some_bind, if_neg hb, Option.bind_none]
        cases he : (pySplit l).head? with
        | none => rw [he] at h; simp at h
        | some e =>
          rw [he] at h
          cases hcs : (((pySplit l).drop 1).take 3).mapM pyFloat with
          | none => rw [hcs] at h; simp at h
          | some cs =>
            rw [hcs] at h
            cases hrec : parseAtoms lines rest with
            | none => rw [hrec] at h; simp at h
            | some p2 =>
              rw [hrec] at h
              simp only [Option.some_bind, Option.pure_def, Option.some.injEq] at h
              have h2 := ih p2 hrec
              rw [← h, h2]
              rfl

theorem parseAtoms_lengths (lines : List String) :
    ∀ (idxs : List Nat) (p : List String × List (List ℚ)),
      parseAtoms lines idxs = some p → p.1.length = p.2.length := by
  intro idxs
  induction idxs with
  | nil =>
    intro p h
    cases h
    rfl
  | cons i rest ih =>
    intro p h
    unfold parseAtoms at h
    cases hget : lines[i]? with
    | none => rw [hget] at h; simp at h
    | some l =>
      rw [hget] at h
      simp only [Option.bind_eq_bind, Option.some_bind] at h
      by_cases hb : pyStrip l = ""
      · rw [if_pos hb] at h
        exact ih p h
      · rw [if_neg hb] at h
        cases he : (pySplit l).head? with
        | none => rw [he] at h; simp at h
        | some e =>
          rw [he] at h
          cases hcs : (((pySplit l).drop 1).take 3).mapM pyFloat with
          | none => rw [hcs] at h; simp at h
          | some cs =>
            rw [hcs] at h
            cases hrec : parseAtoms lines rest with
            | none => rw [hrec] at h; simp at h
            | some p2 =>
              rw [hrec] at h
              simp only [Option.some_bind, Option.pure_def, Option.some.injEq] at h
              rw [← h]
              simpa using ih p2 hrec

theorem parseAtoms_isSome_iff (lines : List String) :
    ∀ idxs : List Nat,
      (parseAtoms lines idxs).isSome = true ↔ ∀ i ∈ idxs, atomLineOk lines i := by
  intro idxs
  induction idxs with
  | nil => simp [parseAtoms]
  | cons i rest ih =>
    constructor
    · intro h j hj
      unfold parseAtoms at h
      cases hget : lines[i]? with
      | none => rw [hget] at h; simp at h
      | some l =>
        rw [hget] at h
        simp only [Option.bind_eq_bind, Option.some_bind] at h
        by_cases hb : pyStrip l = ""
        · rw [if_pos hb] at h
          rcases List.mem_cons.mp hj with rfl | hm
          · exact ⟨l, hget, Or.inl hb⟩
          · exact ih.mp h j hm
        · rw [if_neg hb] at h
          cases he : (pySplit l).head? with
          | none => rw [he] at h; simp at h
          | some e =>
            rw [he] at h
            cases hcs : (((pySplit l).drop 1).take 3).mapM pyFloat with
            | none => rw [hcs] at h; simp at h
            | some cs =>
              rw [hcs] at h
              cases hrec : parseAtoms lines rest with
              | none => rw [hrec] at h; simp at h
              | some p2 =>
                rcases List.mem_cons.mp hj with rfl | hm
                · exact ⟨l, hget, Or.inr (by rw [hcs]; rfl)⟩
                · exact ih.mp (by rw [hrec]; rfl) j hm
    · intro h
      obtain ⟨l, hget, hok⟩ := h i (List.mem_cons_self i rest)
      have hrest := ih.mpr fun j hj => h j (List.mem_cons_of_mem i hj)
      obtain ⟨p2, hp2⟩ : ∃ p2, parseAtoms lines rest = some p2 := by
        cases hx : parseAtoms lines rest with
        | none => rw [hx] at hrest; cases hrest
        | some p2 => exact ⟨p2, rfl⟩
      unfold parseAtoms
      rw [hget]
      simp only [Option.bind_eq_bind, Option.some_bind]
      by_cases hb : pyStrip l = ""
      · rw [if_pos hb, hp2]
        rfl
      · rw [if_neg hb]
        obtain ⟨e, he⟩ := pySplit_head_of_nonblank l hb
        rw [he]
        rcases hok with hb2 | hcs
        · exact absurd hb2 hb
        · obtain ⟨cs, hcs2⟩ : ∃ cs, (((pySplit l).drop 1).take 3).mapM pyFloat = some cs := by
            cases hx : (((pySplit l).drop 1).take 3).mapM pyFloat with
            | none => rw [hx] at hcs; cases hcs
            | some cs => exact ⟨cs, rfl⟩
          rw [hcs2]
          simp only [Option.some_bind, hp2]
          rfl

theorem parseAtoms_all (lines : List String) :
    ∀ (strs : List String) (start : Nat) (rest : List String),
      lines.drop start = strs ++ rest →
      (∀ l ∈ strs, pyStrip l ≠ "" ∧
        ((pySplit l).head?).isSome = true ∧
        ((((pySplit l).drop 1).take 3).mapM pyFloat).isSome = true) →
      parseAtoms lines (List.range' start strs.length)
        = some (strs.map fun l => ((pySplit l).head?).getD "",
                strs.map fun l => (((pySplit l).drop 1).take 3).filterMap pyFloat) := by
  intro strs
  induction strs with
  | nil =>
    intro start rest h hok
    rfl
  | cons l strs ih =>
    intro start rest h hok
    have hget : lines[start]? = some l := getElem?_of_drop_cons _ _ _ _ h
    have hdrop : lines.drop (start + 1) = strs ++ rest := drop_succ_of_drop_cons _ _ _ _ h
    obtain ⟨hnb, hhead, hcs⟩ := hok l (List.mem_cons_self l strs)
    obtain ⟨e, he⟩ := Option.isSome_iff_exists.mp hhead
    obtain ⟨cs, hcs2⟩ := Option.isSome_iff_exists.mp hcs
    show parseAtoms lines (List.range' start (strs.length + 1)) = _
    rw [List.range'_succ]
    unfold parseAtoms
    rw [hget]
    simp only [Option.bind_eq_bind, Option.some_bind]
    rw [if_neg hnb, he, hcs2]
    simp only [Option.some_bind]
    rw [ih (start + 1) rest hdrop fun x hx => hok x (List.mem_cons_of_mem l hx)]
    have hfe : ((pySplit l).head?).getD "" = e := by rw [he]; rfl
    have hff : (((pySplit l).drop 1).take 3).filterMap pyFloat = cs :=
      optionMapM_filterMap _ _ _ hcs2
    have hff2 : List.filterMap pyFloat (List.take 3 (pySplit l).tail) = cs := by
      rw [← List.drop_one]
      exact hff
    simp [List.map_cons, hfe, hff, hff2]

theorem parseXyzLines_eval (lines : List String) (l0 : String) (n : Int)
    (cm : String) (p : List String × List (List ℚ))
    (h0 : lines[0]? = some l0) (hn : pyInt l0 = some n) (h1 : lines[1]? = some cm)
    (hp : parseAtoms lines (List.range' 2 n.toNat) = some p) :
    parseXyzLines lines = some (p.1, p.2, cm) := by
  unfold parseXyzLines
  rw [h0]
  simp only [Option.bind_eq_bind, Option.some_bind]
  rw [hn]
  simp only [Option.some_bind]
  rw [h1]
  simp only [Option.some_bind]
  rw [hp]
  rfl

/-! ## Serializer evaluation -/

theorem concatAll_map_nl (ls : List String) :
    concatAll (ls.map (· ++ "\n")) = blockText ls := by
  induction ls with
  | nil => rfl
  | cons l ls ih =>
    show (l ++ "\n") ++ concatAll (ls.map (· ++ "\n")) = l ++ "\n" ++ blockText ls
    rw [ih]

theorem write_body_eval :
    ∀ ps : List (String × List ℚ), (∀ p ∈ ps, p.2.length = 3) →
      (ps.mapM fun p => do
        let x ← p.2[0]?
        let y ← p.2[1]?
        let z ← p.2[2]?
        pure (p.1 ++ " " ++ fmt6 x ++ " " ++ fmt6 y ++ " " ++ fmt6 z ++ "\n"))
      = some (ps.map fun p =>
          p.1 ++ " " ++ fmt6 (p.2.getD 0 0) ++ " " ++ fmt6 (p.2.getD 1 0)
            ++ " " ++ fmt6 (p.2.getD 2 0) ++ "\n") := by
  intro ps
  induction ps with
  | nil =>
    intro _
    rw [List.mapM_nil]
    rfl
  | cons p ps ih =>
    intro h
    obtain ⟨x, y, z, hxyz⟩ := List.length_eq_three.mp (h p (List.mem_cons_self p ps))
    rw [List.mapM_cons, ih fun q hq => h q (List.mem_cons_of_mem p hq)]
    simp [hxyz]

theorem write_xyz_eval (atoms : List String) (coords : List (List ℚ)) (cmt : String)
    (h3 : ∀ c ∈ coords, c.length = 3) :
    write_xyz_string atoms coords cmt
      = some (blockText (natRepr atoms.length :: cmt ::
          ((atoms.zip coords).map fun p =>
            p.1 ++ " " ++ fmt6 (p.2.getD 0 0) ++ " " ++ fmt6 (p.2.getD 1 0)
              ++ " " ++ fmt6 (p.2.getD 2 0)))) := by
  unfold write_xyz_string
  rw [write_body_eval (atoms.zip coords) fun p hp => by
    cases p with
    | mk a c => exact h3 c (List.of_mem_zip hp).2]
  simp only [Option.bind_eq_bind, Option.some_bind, Option.pure_def, Option.some.injEq]
  have hmm : ((atoms.zip coords).map fun p =>
      p.1 ++ " " ++ fmt6 (p.2.getD 0 0) ++ " " ++ fmt6 (p.2.getD 1 0)
        ++ " " ++ fmt6 (p.2.getD 2 0) ++ "\n")
      = (((atoms.zip coords).map fun p =>
      p.1 ++ " " ++ fmt6 (p.2.getD 0 0) ++ " " ++ fmt6 (p.2.getD 1 0)
        ++ " " ++ fmt6 (p.2.getD 2 0)).map (· ++ "\n")) := by
    rw [List.map_map]
    rfl
  rw [hmm, concatAll_map_nl]
  show _ = (natRepr atoms.length ++ "\n" ++ (cmt ++ "\n" ++ blockText _))
  rw [← String.append_assoc, ← String.append_assoc]

/-! ## Trajectory loop evaluation -/

theorem pyGet_natCast (xs : List String) (i : Nat) : pyGet xs (i : Int) = xs[i]? := by
  unfold pyGet
  rw [if_pos (by omega : (0 : Int) ≤ (i : Int))]
  rw [Int.toNat_natCast]

theorem trajAtoms_all (lines : List String) :
    ∀ (strs : List String) (start : Nat) (rest : List String),
      lines.drop start = strs ++ rest →
      (∀ l ∈ strs, 4 ≤ (pySplit l).length ∧
        ((((pySplit l).drop 1).take 3).mapM pyFloat).isSome = true) →
      trajAtoms lines ((List.range strs.length).map fun k : Nat => (start : Int) + (k : Int))
        = some (strs.map fun l => (((pySplit l).head?).getD "",
            (((pySplit l).drop 1).take 3).filterMap pyFloat)) := by
  intro strs
  induction strs with
  | nil =>
    intro start rest h hok
    rfl
  | cons l strs ih =>
    intro start rest h hok
    have hget : lines[start]? = some l := getElem?_of_drop_cons _ _ _ _ h
    have hdrop : lines.drop (start + 1) = strs ++ rest := drop_succ_of_drop_cons _ _ _ _ h
    obtain ⟨h4, hcs⟩ := hok l (List.mem_cons_self l strs)
    obtain ⟨cs, hcs2⟩ := Option.isSome_iff_exists.mp hcs
    have hlt : (start : Int) < (lines.length : Int) := by
      have h5 : (lines.drop start).length = lines.length - start := List.length_drop _ _
      rw [h] at h5
      simp only [List.length_append, List.length_cons] at h5
      omega
    obtain ⟨e, ts, hsp⟩ : ∃ e ts, pySplit l = e :: ts := by
      cases hx : pySplit l with
      | nil => rw [hx] at h4; simp at h4
      | cons e ts => exact ⟨e, ts, rfl⟩
    have hmap : (List.range (strs.length + 1)).map (fun k : Nat => (start : Int) + (k : Int))
        = ((start : Int) + ((0 : Nat) : Int))
          :: ((List.range strs.length).map fun k : Nat => ((start + 1 : Nat) : Int) + (k : Int)) := by
      rw [List.range_succ_eq_map, List.map_cons, List.map_map]
      congr 1
      apply List.map_eq_map_iff.mpr
      intro a _
      show (start : Int) + ((a + 1 : Nat) : Int) = ((start + 1 : Nat) : Int) + (a : Int)
      push_cast
      ring
    show trajAtoms lines
      ((List.range (strs.length + 1)).map fun k : Nat => (start : Int) + (k : Int)) = _
    rw [hmap]
    unfold trajAtoms
    rw [if_pos (by push_cast; omega : (start : Int) + ((0 : Nat) : Int) < (lines.length : Int))]
    have hg2 : pyGet lines ((start : Int) + ((0 : Nat) : Int)) = some l := by
      rw [show (start : Int) + ((0 : Nat) : Int) = (start : Int) by push_cast; ring,
        pyGet_natCast, hget]
    rw [hg2]
    simp only [Option.bind_eq_bind, Option.some_bind]
    rw [if_pos h4]
    rw [hsp] at hcs2
    simp only [List.drop_succ_cons, List.drop_zero] at hcs2
    rw [hsp]
    simp only [List.head?_cons, Option.some_bind, List.drop_succ_cons, List.drop_zero]
    rw [hcs2]
    simp only [Option.some_bind]
    rw [ih (start + 1) rest hdrop fun x hx => hok x (List.mem_cons_of_mem l hx)]
    simp only [Option.some_bind, Option.pure_def, Option.some.injEq]
    rw [List.map_cons]
    have hff : (ts.take 3).filterMap pyFloat = cs := optionMapM_filterMap _ _ _ hcs2
    rw [hsp]
    simp only [List.head?_cons, Option.getD_some, List.drop_succ_cons, List.drop_zero, hff]

theorem trajIter_block (lines : List String) (start : Nat) (hdr cm : String)
    (atomLines rest : List String)
    (hdrop : lines.drop start = hdr :: cm :: (atomLines ++ rest))
    (hn : pyInt hdr = some (atomLines.length : Int))
    (hne : atomLines ≠ [])
    (hok : ∀ l ∈ atomLines, 4 ≤ (pySplit l).length ∧
      ((((pySplit l).drop 1).take 3).mapM pyFloat).isSome = true) :
    trajIter lines (start : Int)
      = some (some (atomLines.map fun l => ((pySplit l).head?).getD "",
          atomLines.map fun l => (((pySplit l).drop 1).take 3).filterMap pyFloat),
        (start : Int) + atomLines.length + 2) := by
  have hget : lines[start]? = some hdr := getElem?_of_drop_cons _ _ _ _ hdrop
  have hdrop1 : lines.drop (start + 1) = cm :: (atomLines ++ rest) :=
    drop_succ_of_drop_cons _ _ _ _ hdrop
  have hget1 : lines[start + 1]? = some cm := getElem?_of_drop_cons _ _ _ _ hdrop1
  have hdrop2 : lines.drop (start + 2) = atomLines ++ rest := by
    have h6 := drop_succ_of_drop_cons _ _ _ _ hdrop1
    simpa [Nat.add_assoc] using h6
  unfold trajIter
  rw [pyGet_natCast, hget]
  simp only [Option.bind_eq_bind, Option.some_bind]
  rw [hn]
  simp only [Option.some_bind]
  have hg1 : pyGet lines ((start : Int) + 1) = some cm := by
    rw [show (start : Int) + 1 = ((start + 1 : Nat) : Int) by push_cast; ring,
      pyGet_natCast, hget1]
  rw [hg1]
  simp only [Option.some_bind]
  have hjs : (List.range ((atomLines.length : Int)).toNat).map
      (fun k : Nat => (start : Int) + 2 + (k : Int))
      = (List.range atomLines.length).map fun k : Nat => ((start + 2 : Nat) : Int) + (k : Int) := by
    rw [Int.toNat_natCast]
    apply List.map_eq_map_iff.mpr
    intro a _
    push_cast
    ring
  rw [hjs, trajAtoms_all lines atomLines (start + 2) rest hdrop2 hok]
  simp only [Option.some_bind]
  have hemp : (atomLines.map fun l => (((pySplit l).head?).getD "",
      (((pySplit l).drop 1).take 3).filterMap pyFloat)).isEmpty = false := by
    cases atomLines with
    | nil => exact absurd rfl hne
    | cons a b => rfl
  rw [hemp]
  simp only [Bool.false_eq_true, if_false, List.map_map, Option.pure_def,
    Option.some.injEq]
  ring_nf
  simp [Function.comp]

theorem trajLoop_blocks (lines : List String) :
    ∀ (blocks : List (List String)) (fuel start : Nat)
      (acc : List (List String × List (List ℚ))),
      (∀ b ∈ blocks, WFBlock b) →
      lines.drop start = blocks.flatten →
      blocks.length < fuel →
      trajLoop lines fuel (start : Int) acc
        = some (acc ++ blocks.map fun b => (blockElems b, blockCoords b)) := by
  intro blocks
  induction blocks with
  | nil =>
    intro fuel start acc _ hdrop _
    have hge : lines.length ≤ start := List.drop_eq_nil_iff.mp (by simpa using hdrop)
    unfold trajLoop
    rw [if_neg (by omega)]
    simp
  | cons b bs ih =>
    intro fuel start acc hwf hdrop hfuel
    obtain ⟨hdr, cm, atomLines, hb, hn, hne, hfix, hnl1, hnl2, hok⟩ :=
      hwf b (List.mem_cons_self b bs)
    subst hb
    have hdropb : lines.drop start = hdr :: cm :: (atomLines ++ bs.flatten) := by
      rw [hdrop]
      rfl
    have hdrop2 : lines.drop (start + 2) = atomLines ++ bs.flatten := by
      have h7 := drop_succ_of_drop_cons _ _ _ _ hdropb
      have h8 := drop_succ_of_drop_cons _ _ _ _ h7
      simpa [Nat.add_assoc] using h8
    cases fuel with
    | zero => omega
    | succ f =>
      have hlen : (lines.drop start).length = lines.length - start := List.length_drop _ _
      have hlt : (start : Int) < (lines.length : Int) := by
        rw [hdropb] at hlen
        simp only [List.length_cons] at hlen
        omega
      unfold trajLoop
      rw [if_pos hlt]
      rw [trajIter_block lines start hdr cm atomLines bs.flatten hdropb hn hne
        fun l hl => ⟨(hok l hl).2.2.1, (hok l hl).2.2.2⟩]
      show trajLoop lines f ((start : Int) + atomLines.length + 2)
        (acc ++ [(atomLines.map fun l => ((pySplit l).head?).getD "",
          atomLines.map fun l => (((pySplit l).drop 1).take 3).filterMap pyFloat)]) = _
      have hdropbs : lines.drop (start + (atomLines.length + 2)) = bs.flatten := by
        have h9 := List.drop_drop atomLines.length (start + 2) lines
        rw [hdrop2, List.drop_left] at h9
        rw [show start + (atomLines.length + 2) = start + 2 + atomLines.length from by omega,
          ← h9]
      have hi2 : (start : Int) + atomLines.length + 2
          = ((start + (atomLines.length + 2) : Nat) : Int) := by push_cast; ring
      rw [hi2, ih f (start + (atomLines.length + 2)) _
        (fun x hx => hwf x (List.mem_cons_of_mem _ hx)) hdropbs
        (by simp only [List.length_cons] at hfuel; omega)]
      simp only [List.map_cons, List.append_assoc, List.singleton_append]
      rfl

theorem pyGet_mem (xs : List String) (i : Int) (l : String)
    (h : pyGet xs i = some l) : l ∈ xs := by
  unfold pyGet at h
  by_cases h1 : 0 ≤ i
  · rw [if_pos h1] at h
    exact List.getElem?_mem h
  · rw [if_neg h1] at h
    by_cases h2 : 0 ≤ i + xs.length
    · rw [if_pos h2] at h
      exact List.getElem?_mem h
    · rw [if_neg h2] at h
      cases h

theorem trajIter_advance (lines : List String) (i : Int)
    (si : Option (List String × List (List ℚ)) × Int)
    (h : trajIter lines i = some si) :
    ∃ l n, pyGet lines i = some l ∧ pyInt l = some n ∧ si.2 = i + n + 2 := by
  unfold trajIter at h
  cases hget : pyGet lines i with
  | none => rw [hget] at h; simp at h
  | some l =>
    rw [hget] at h
    simp only [Option.bind_eq_bind, Option.some_bind] at h
    cases hn : pyInt l with
    | none => rw [hn] at h; simp at h
    | some n =>
      rw [hn] at h
      simp only [Option.some_bind] at h
      cases hg1 : pyGet lines (i + 1) with
      | none => rw [hg1] at h; simp at h
      | some cm =>
        rw [hg1] at h
        simp only [Option.some_bind] at h
        cases hta : trajAtoms lines ((List.range n.toNat).map fun k : Nat => i + 2 + (k : Int)) with
        | none => rw [hta] at h; simp at h
        | some pairs =>
          rw [hta] at h
          simp only [Option.some_bind, Option.pure_def, Option.some.injEq] at h
          cases h
          exact ⟨l, n, rfl, hn, rfl⟩

theorem trajLoop_total (lines : List String)
    (hhdr : ∀ l ∈ lines, ∀ n : Int, pyInt l = some n → -1 ≤ n) :
    ∀ (fuel : Nat) (i : Int) (acc : List (List String × List (List ℚ))),
      0 ≤ i → (lines.length : Int) ≤ i + fuel →
      (trajLoop lines fuel i acc).isSome = true := by
  intro fuel
  induction fuel with
  | zero =>
    intro i acc h0 hle
    unfold trajLoop
    rw [if_neg (by omega)]
    rfl
  | succ f ih =>
    intro i acc h0 hle
    unfold trajLoop
    by_cases hlt : i < (lines.length : Int)
    · rw [if_pos hlt]
      cases hit : trajIter lines i with
      | none => exact ih (i + 1) acc (by omega) (by push_cast at hle ⊢; omega)
      | some si =>
        obtain ⟨l, n, hget, hn, hadv⟩ := trajIter_advance lines i si hit
        have hmem := pyGet_mem lines i l hget
        have hge := hhdr l hmem n hn
        exact ih si.2 _ (by omega) (by push_cast at hle ⊢; omega)
    · rw [if_neg hlt]
      rfl

/-! ## Well-formed block facts -/

theorem data_ne_nil_of_ne_empty (s : String) (h : s ≠ "") : s.data ≠ [] := by
  intro hd
  apply h
  cases s with
  | mk d =>
    cases hd
    rfl

theorem ne_empty_of_data_ne_nil (s : String) (h : s.data ≠ []) : s ≠ "" := by
  intro hs
  rw [hs] at h
  exact h rfl

theorem pyStrip_fix_data (l : String) (h : pyStrip l = l) :
    stripChars l.data = l.data := congrArg String.data h

theorem pyInt_ne_empty (l : String) (n : Int) (h : pyInt l = some n) : l ≠ "" := by
  intro hl
  rw [hl] at h
  cases h

theorem pySplit_ne_empty_of_four (l : String) (h : 4 ≤ (pySplit l).length) : l ≠ "" := by
  intro hl
  rw [hl] at h
  have : pySplit "" = [] := rfl
  rw [this] at h
  simp at h

theorem WFBlock_no_nl (b : List String) (hwf : WFBlock b) :
    ∀ l ∈ b, '\n' ∉ l.data := by
  obtain ⟨hdr, cm, atomLines, rfl, hn, hne, hfix, hnl1, hnl2, hok⟩ := hwf
  intro l hl
  rcases List.mem_cons.mp hl with rfl | hl2
  · exact hnl1
  · rcases List.mem_cons.mp hl2 with rfl | hl3
    · exact hnl2
    · exact (hok l hl3).1

theorem WFBlock_last_line (b : List String) (hwf : WFBlock b) :
    ∃ llast, b.getLast? = some llast ∧ pyStrip llast = llast ∧ llast ≠ "" := by
  obtain ⟨hdr, cm, atomLines, rfl, hn, hne, hfix, hnl1, hnl2, hok⟩ := hwf
  obtain ⟨llast, hl⟩ : ∃ llast, atomLines.getLast? = some llast := by
    cases hL : atomLines.getLast? with
    | none => rw [List.getLast?_eq_none_iff] at hL; exact absurd hL hne
    | some x => exact ⟨x, rfl⟩
  have hmem := List.mem_of_mem_getLast? hl
  refine ⟨llast, ?_, (hok llast hmem).2.1,
    pySplit_ne_empty_of_four llast (hok llast hmem).2.2.1⟩
  rw [List.getLast?_cons_cons]
  cases atomLines with
  | nil => exact absurd rfl hne
  | cons x xs =>
    rw [List.getLast?_cons_cons]
    exact hl

theorem flatten_last_line (blocks : List (List String)) :
    blocks ≠ [] → (∀ b ∈ blocks, WFBlock b) →
    ∃ llast, blocks.flatten.getLast? = some llast ∧ pyStrip llast = llast ∧ llast ≠ "" := by
  induction blocks with
  | nil => intro h _; exact absurd rfl h
  | cons b bs ih =>
    intro _ hwf
    cases hbs : bs with
    | nil =>
      obtain ⟨llast, h1, h2, h3⟩ := WFBlock_last_line b (hwf b (List.mem_cons_self b bs))
      refine ⟨llast, ?_, h2, h3⟩
      show (b ++ ([] : List (List String)).flatten).getLast? = some llast
      simpa using h1
    | cons b2 bs2 =>
      obtain ⟨llast, h1, h2, h3⟩ := ih (by rw [hbs]; simp)
        (fun x hx => hwf x (by rw [hbs] at hx ⊢; exact List.mem_cons_of_mem b hx))
      rw [← hbs]
      refine ⟨llast, ?_, h2, h3⟩
      show (b ++ bs.flatten).getLast? = some llast
      rw [List.getLast?_append, h1]
      rfl

theorem blocks_length_le_flatten (blocks : List (List String))
    (h : ∀ b ∈ blocks, b ≠ []) : blocks.length ≤ blocks.flatten.length := by
  induction blocks with
  | nil => simp
  | cons b bs ih =>
    have hb := h b (List.mem_cons_self b bs)
    have h2 := ih fun x hx => h x (List.mem_cons_of_mem b hx)
    have hbl : 1 ≤ b.length := by
      cases b with
      | nil => exact absurd rfl hb
      | cons x xs => simp
    simp only [List.length_cons, List.flatten_cons, List.length_append]
    omega

theorem head_isSome_of_four (l : String) (h : 4 ≤ (pySplit l).length) :
    ((pySplit l).head?).isSome = true := by
  cases hx : pySplit l with
  | nil => rw [hx] at h; simp at h
  | cons e ts => rfl

theorem parse_block (b : List String) (hwf : WFBlock b) :
    parse_xyz_string (blockText b)
      = some (blockElems b, blockCoords b, (b[1]?).getD "") := by
  obtain ⟨hdr, cm, atomLines, rfl, hn, hne, hfix, hnl1, hnl2, hok⟩ := hwf
  have hwf2 : WFBlock (hdr :: cm :: atomLines) :=
    ⟨hdr, cm, atomLines, rfl, hn, hne, hfix, hnl1, hnl2, hok⟩
  obtain ⟨llast, hl1, hl2, hl3⟩ := WFBlock_last_line _ hwf2
  obtain ⟨d, hd, hdns⟩ := last_not_space_of_strip_fix llast.data
    (pyStrip_fix_data _ hl2) (data_ne_nil_of_ne_empty _ hl3)
  have hlines : splitLines (pyStrip (blockText (hdr :: cm :: atomLines)))
      = hdr :: cm :: atomLines := by
    apply splitLines_pyStrip_blockText _ (by simp) (WFBlock_no_nl _ hwf2)
    · obtain ⟨c, t, hct, hc⟩ := head_not_space_of_strip_fix hdr.data
        (pyStrip_fix_data hdr hfix)
        (data_ne_nil_of_ne_empty hdr (pyInt_ne_empty hdr _ hn))
      exact ⟨c, t, by simpa using hct, hc⟩
    · exact ⟨llast, hl1, d, hd, hdns⟩
  have hatoms := parseAtoms_all (hdr :: cm :: atomLines) atomLines 2 []
    (by simp)
    (fun l hl => by
      refine ⟨?_, head_isSome_of_four l (hok l hl).2.2.1, (hok l hl).2.2.2⟩
      rw [(hok l hl).2.1]
      exact pySplit_ne_empty_of_four l (hok l hl).2.2.1)
  unfold parse_xyz_string
  rw [hlines]
  have heval := parseXyzLines_eval (hdr :: cm :: atomLines) hdr (atomLines.length : Int)
    cm _ (by simp) hn (by simp) (by rw [Int.toNat_natCast]; exact hatoms)
  rw [heval]
  simp [blockElems, blockCoords]

theorem pySplit_line4 (a f1 f2 f3 : String)
    (ha : a.data ≠ []) (haw : ∀ c ∈ a.data, isPySpace c = false)
    (h1 : f1.data ≠ []) (h1w : ∀ c ∈ f1.data, isPySpace c = false)
    (h2 : f2.data ≠ []) (h2w : ∀ c ∈ f2.data, isPySpace c = false)
    (h3 : f3.data ≠ []) (h3w : ∀ c ∈ f3.data, isPySpace c = false) :
    pySplit (a ++ " " ++ f1 ++ " " ++ f2 ++ " " ++ f3) = [a, f1, f2, f3] := by
  have hdata : (a ++ " " ++ f1 ++ " " ++ f2 ++ " " ++ f3).data
      = a.data ++ ' ' :: (f1.data ++ ' ' :: (f2.data ++ ' ' :: f3.data)) := by
    simp [String.data_append]
  unfold pySplit
  rw [hdata]
  rw [tokensAux_append_space a.data [] _ haw (by simpa using ha)]
  rw [tokensAux_append_space f1.data [] _ h1w (by simpa using h1)]
  rw [tokensAux_append_space f2.data [] _ h2w (by simpa using h2)]
  rw [tokensAux_last_token f3.data [] h3w (by simpa using h3)]
  rfl

theorem parse_atoms_token_props (lines : List String) (idxs : List Nat)
    (atoms : List String) (coords : List (List ℚ))
    (h : parseAtoms lines idxs = some (atoms, coords)) :
    ∀ a ∈ atoms, a.data ≠ [] ∧ ∀ c ∈ a.data, isPySpace c = false := by
  have h2 := parseAtoms_eq lines idxs _ h
  have hA : atoms = singleAtomsOf lines idxs := congrArg Prod.fst h2
  intro a ha
  rw [hA] at ha
  unfold singleAtomsOf at ha
  obtain ⟨i, hi, hfi⟩ := List.mem_filterMap.mp ha
  cases hget : lines[i]? with
  | none => rw [hget] at hfi; cases hfi
  | some l =>
    rw [hget] at hfi
    simp only [Option.some_bind] at hfi
    by_cases hb : pyStrip l = ""
    · rw [if_pos hb] at hfi; cases hfi
    · rw [if_neg hb] at hfi
      have hmem : a ∈ pySplit l := List.mem_of_mem_head? hfi
      obtain ⟨hne, hw⟩ := pySplit_token_props l a hmem
      exact ⟨data_ne_nil_of_ne_empty a hne, hw⟩

/-! ## Parsed trajectory coordinate rows have three entries -/

theorem trajAtoms_coords_len (lines : List String) :
    ∀ (js : List Int) (pairs : List (String × List ℚ)),
      trajAtoms lines js = some pairs → ∀ p ∈ pairs, p.2.length = 3 := by
  intro js
  induction js with
  | nil =>
    intro pairs h p hp
    cases h
    simp at hp
  | cons j rest ih =>
    intro pairs h p hp
    unfold trajAtoms at h
    by_cases hlt : j < (lines.length : Int)
    · rw [if_pos hlt] at h
      cases hget : pyGet lines j with
      | none => rw [hget] at h; simp at h
      | some l =>
        rw [hget] at h
        simp only [Option.bind_eq_bind, Option.some_bind] at h
        by_cases h4 : 4 ≤ (pySplit l).length
        · rw [if_pos h4] at h
          cases he : (pySplit l).head? with
          | none => rw [he] at h; simp at h
          | some e =>
            rw [he] at h
            cases hcs : (((pySplit l).drop 1).take 3).mapM pyFloat with
            | none => rw [hcs] at h; simp at h
            | some cs =>
              rw [hcs] at h
              cases hrec : trajAtoms lines rest with
              | none => rw [hrec] at h; simp at h
              | some tl =>
                rw [hrec] at h
                simp only [Option.some_bind, Option.pure_def, Option.some.injEq] at h
                cases h
                rcases List.mem_cons.mp hp with rfl | hm
                · show cs.length = 3
                  have hlen := optionMapM_length _ _ _ hcs
                  rw [List.length_take, List.length_drop] at hlen
                  omega
                · exact ih tl hrec p hm
        · rw [if_neg h4] at h
          exact ih pairs h p hp
    · rw [if_neg hlt] at h
      exact ih pairs h p hp

theorem trajIter_coords_len (lines : List String) (i : Int)
    (s : List String × List (List ℚ)) (i2 : Int)
    (h : trajIter lines i = some (some s, i2)) :
    ∀ c ∈ s.2, c.length = 3 := by
  unfold trajIter at h
  cases hget : pyGet lines i with
  | none => rw [hget] at h; simp at h
  | some l =>
    rw [hget] at h
    simp only [Option.bind_eq_bind, Option.some_bind] at h
    cases hn : pyInt l with
    | none => rw [hn] at h; simp at h
    | some n =>
      rw [hn] at h
      simp only [Option.some_bind] at h
      cases hg1 : pyGet lines (i + 1) with
      | none => rw [hg1] at h; simp at h
      | some cm =>
        rw [hg1] at h
        simp only [Option.some_bind] at h
        cases hta : trajAtoms lines ((List.range n.toNat).map fun k : Nat => i + 2 + (k : Int)) with
        | none => rw [hta] at h; simp at h
        | some pairs =>
          rw [hta] at h
          simp only [Option.some_bind, Option.pure_def, Option.some.injEq] at h
          have hpl := trajAtoms_coords_len lines _ pairs hta
          by_cases hemp : pairs.isEmpty
          · rw [if_pos hemp] at h
            simp at h
          · rw [if_neg hemp] at h
            have hs : (pairs.map Prod.fst, pairs.map Prod.snd) = s := by
              have h7 := congrArg Prod.fst h
              simpa using h7
            intro c hc
            rw [← hs] at hc
            simp only at hc
            obtain ⟨p, hp, rfl⟩ := List.mem_map.mp hc
            exact hpl p hp

theorem trajLoop_coords_len (lines : List String) :
    ∀ (fuel : Nat) (i : Int) (acc structs : List (List String × List (List ℚ))),
      (∀ p ∈ acc, ∀ c ∈ p.2, c.length = 3) →
      trajLoop lines fuel i acc = some structs →
      ∀ p ∈ structs, ∀ c ∈ p.2, c.length = 3 := by
  intro fuel
  induction fuel with
  | zero =>
    intro i acc structs hacc h
    unfold trajLoop at h
    by_cases hlt : i < (lines.length : Int)
    · rw [if_pos hlt] at h; cases h
    · rw [if_neg hlt] at h
      cases h
      exact hacc
  | succ f ih =>
    intro i acc structs hacc h
    unfold trajLoop at h
    by_cases hlt : i < (lines.length : Int)
    · rw [if_pos hlt] at h
      cases hit : trajIter lines i with
      | none =>
        rw [hit] at h
        exact ih (i + 1) acc structs hacc h
      | some si =>
        rw [hit] at h
        refine ih si.2 (acc ++ si.1.toList) structs ?_ h
        intro p hp
        rcases List.mem_append.mp hp with hm | hm
        · exact hacc p hm
        · cases hsi : si.1 with
          | none => rw [hsi] at hm; simp at hm
          | some s =>
            rw [hsi] at hm
            simp only [Option.toList_some, List.mem_singleton] at hm
            subst hm
            have h6 : trajIter lines i = some (some p, si.2) := by
              rw [hit]
              rw [← hsi]
            exact trajIter_coords_len lines i p si.2 h6
    · rw [if_neg hlt] at h
      cases h
      exact hacc

theorem parse_trajectory_coords_len (s : String)
    (structs : List (List String × List (List ℚ)))
    (h : parse_trajectory_xyz s = some structs) :
    ∀ p ∈ structs, ∀ c ∈ p.2, c.length = 3 := by
  unfold parse_trajectory_xyz at h
  exact trajLoop_coords_len _ _ 0 [] structs (by simp) h

/-! ## Remaining helpers for the round trip -/

theorem parseXyzLines_inv (lines : List String) (atoms : List String)
    (coords : List (List ℚ)) (cm : String)
    (h : parseXyzLines lines = some (atoms, coords, cm)) :
    ∃ l0 n, lines[0]? = some l0 ∧ pyInt l0 = some n ∧ lines[1]? = some cm ∧
      parseAtoms lines (List.range' 2 n.toNat) = some (atoms, coords) := by
  unfold parseXyzLines at h
  cases h0 : lines[0]? with
  | none => rw [h0] at h; simp at h
  | some l0 =>
    rw [h0] at h
    simp only [Option.bind_eq_bind, Option.some_bind] at h
    cases hn : pyInt l0 with
    | none => rw [hn] at h; simp at h
    | some n =>
      rw [hn] at h
      simp only [Option.some_bind] at h
      cases h1 : lines[1]? with
      | none => rw [h1] at h; simp at h
      | some cm2 =>
        rw [h1] at h
        simp only [Option.some_bind] at h
        cases hp : parseAtoms lines (List.range' 2 n.toNat) with
        | none => rw [hp] at h; simp at h
        | some p =>
          rw [hp] at h
          simp only [Option.some_bind, Option.pure_def, Option.some.injEq] at h
          obtain ⟨h2, h3, h4⟩ : p.1 = atoms ∧ p.2 = coords ∧ cm2 = cm := by
            have e1 := congrArg Prod.fst h
            have e2 := congrArg (fun x => x.2.1) h
            have e3 := congrArg (fun x => x.2.2) h
            exact ⟨e1, e2, e3⟩
          subst h4
          refine ⟨l0, n, rfl, hn, rfl, ?_⟩
          rw [hp, ← h2, ← h3]

theorem stripChars_ne_nil_of_exists (cs : List Char)
    (h : ∃ c ∈ cs, isPySpace c = false) : stripChars cs ≠ [] := by
  intro hnil
  obtain ⟨c, hc, hcf⟩ := h
  -- stripChars cs = [] forces every character to be whitespace
  have hA : List.dropWhile isPySpace (((cs.dropWhile isPySpace).reverse)) = [] := by
    unfold stripChars at hnil
    rwa [List.reverse_eq_nil_iff] at hnil
  have hall : ∀ x ∈ cs.dropWhile isPySpace, isPySpace x = true := by
    intro x hx
    exact List.dropWhile_eq_nil_iff.mp hA x (by simpa using hx)
  have hsplit := List.takeWhile_append_dropWhile isPySpace cs
  rcases List.mem_append.mp (by rw [hsplit]; exact hc :
      c ∈ cs.takeWhile isPySpace ++ cs.dropWhile isPySpace) with hm | hm
  · rw [List.mem_takeWhile_imp hm] at hcf
    cases hcf
  · rw [hall c hm] at hcf
    cases hcf

theorem forall₂_map_map {α β γ : Type} (l : List α) (f : α → β) (g : α → γ)
    (R : β → γ → Prop) (h : ∀ x ∈ l, R (f x) (g x)) :
    List.Forall₂ R (l.map f) (l.map g) := by
  induction l with
  | nil => simp
  | cons a l ih =>
    rw [List.map_cons, List.map_cons, List.forall₂_cons]
    exact ⟨h a (List.mem_cons_self a l),
      ih fun x hx => h x (List.mem_cons_of_mem a hx)⟩

theorem mapM_float3 (x y z : ℚ) :
    ([fmt6 x, fmt6 y, fmt6 z]).mapM pyFloat
      = some [((round (x * 1000000) : ℤ) : ℚ) / 1000000,
          ((round (y * 1000000) : ℤ) : ℚ) / 1000000,
          ((round (z * 1000000) : ℤ) : ℚ) / 1000000] := by
  rw [List.mapM_cons, pyFloat_fmt6, List.mapM_cons, pyFloat_fmt6,
    List.mapM_cons, pyFloat_fmt6, List.mapM_nil]
  rfl

theorem line4_no_nl (a f1 f2 f3 : String)
    (ha : '\n' ∉ a.data)
    (h1 : '\n' ∉ f1.data) (h2 : '\n' ∉ f2.data) (h3 : '\n' ∉ f3.data) :
    '\n' ∉ (a ++ " " ++ f1 ++ " " ++ f2 ++ " " ++ f3).data := by
  intro hm
  simp only [String.data_append] at hm
  rcases List.mem_append.mp hm with hm2 | hm2
  · rcases List.mem_append.mp hm2 with hm3 | hm3
    · rcases List.mem_append.mp hm3 with hm4 | hm4
      · rcases List.mem_append.mp hm4 with hm5 | hm5
        · rcases List.mem_append.mp hm5 with hm6 | hm6
          · rcases List.mem_append.mp hm6 with hm7 | hm7
            · exact ha hm7
            · simp at hm7
          · exact h1 hm6
        · simp at hm5
      · exact h2 hm4
    · simp at hm3
  · exact h3 hm2

theorem no_nl_of_no_space (d : List Char) (h : ∀ c ∈ d, isPySpace c = false) :
    '\n' ∉ d := by
  intro hm
  exact absurd (h '\n' hm) (by decide)

theorem splitLines_blockText_get1 (l0 l1 : String) (rest : List String)
    (h0 : '\n' ∉ l0.data) (h1 : '\n' ∉ l1.data) :
    (splitLines (blockText (l0 :: l1 :: rest)))[1]? = some l1 := by
  unfold splitLines
  rw [data_blockText]
  show ((splitCh (l0.data ++ '\n' :: (l1.data ++ '\n'
    :: joinData (rest.map String.data)))).map String.mk)[1]? = some l1
  rw [splitCh_append_nl _ _ h0, splitCh_append_nl _ _ h1]
  simp

theorem line4_last (a f1 f2 f3 : String) (h3 : f3.data ≠ []) :
    (a ++ " " ++ f1 ++ " " ++ f2 ++ " " ++ f3).data.getLast? = f3.data.getLast? := by
  simp only [String.data_append]
  rw [List.getLast?_append]
  cases hL : f3.data.getLast? with
  | none => rw [List.getLast?_eq_none_iff] at hL; exact absurd hL h3
  | some d => rfl

/-! ## Claim theorems -/

/-- C3 counterexample: with the tool on the path, a zero exit status, and
both output files absent, the trajectory log is "absent after a zero-exit
run", yet the code reports the tool-availability message (the shared
`FileNotFoundError` handler fires on the failed `open` of `xtbopt.xyz`)
and never the missing-artifact message, contradicting the claim that this
situation "reports a missing-artifact error". -/
theorem run_xtb_missing_artifact_cex :
    run_xtb_optimization ⟨true, true, false, "", false, ""⟩
      = ((none, none), ["xTB is not installed or not in PATH"]) ∧
    "Trajectory file not found"
      ∉ (run_xtb_optimization ⟨true, true, false, "", false, ""⟩).2 := by
  constructor
  · rfl
  · decide

/-- C3 (amended): the orchestrator's failure mapping.  (1) A binary absent
from the execution path yields exactly one tool-availability error and no
result for either component.  (2) A nonzero exit yields no result for
either component and no error message.  (3) A missing trajectory log after
a zero-exit run yields the missing-artifact error and no trajectory, with
the optimized structure still returned, provided the optimized-structure
file itself exists; (4) when that file is also missing, the shared
exception handler reports the tool-availability message instead and
returns no result for both components. -/
theorem run_xtb_failure_modes_amended :
    (∀ env : XtbEnv, env.xtbOnPath = false →
      run_xtb_optimization env = ((none, none), ["xTB is not installed or not in PATH"])) ∧
    (∀ env : XtbEnv, env.xtbOnPath = true → env.exitZero = false →
      run_xtb_optimization env = ((none, none), [])) ∧
    (∀ env : XtbEnv, env.xtbOnPath = true → env.exitZero = true →
      env.xtboptExists = true → env.logExists = false →
      run_xtb_optimization env
        = ((some env.xtboptContent, none), ["Trajectory file not found"])) ∧
    (∀ env : XtbEnv, env.xtbOnPath = true → env.exitZero = true →
      env.xtboptExists = false →
      run_xtb_optimization env
        = ((none, none), ["xTB is not installed or not in PATH"])) := by
  refine ⟨?_, ?_, ?_, ?_⟩
  · intro env h
    unfold run_xtb_optimization
    rw [h]
    rfl
  · intro env h1 h2
    unfold run_xtb_optimization
    rw [h1, h2]
    rfl
  · intro env h1 h2 h3 h4
    unfold run_xtb_optimization get_trajectory_from_xtb
    rw [h1, h2, h3, h4]
    rfl
  · intro env h1 h2 h3
    unfold run_xtb_optimization
    rw [h1, h2, h3]
    rfl

/-- C3 witness: each amended failure mode at a concrete environment. -/
theorem run_xtb_failure_modes_amended_witness :
    run_xtb_optimization ⟨false, false, false, "", false, ""⟩
      = ((none, none), ["xTB is not installed or not in PATH"]) ∧
    run_xtb_optimization ⟨true, false, false, "", false, ""⟩ = ((none, none), []) ∧
    run_xtb_optimization ⟨true, true, true, "OPT", false, ""⟩
      = ((some "OPT", none), ["Trajectory file not found"]) ∧
    run_xtb_optimization ⟨true, true, false, "", true, "LOG"⟩
      = ((none, none), ["xTB is not installed or not in PATH"]) :=
  ⟨run_xtb_failure_modes_amended.1 _ rfl,
   run_xtb_failure_modes_amended.2.1 _ rfl rfl,
   run_xtb_failure_modes_amended.2.2.1 _ rfl rfl rfl rfl,
   run_xtb_failure_modes_amended.2.2.2 _ rfl rfl rfl⟩

/-- C8 counterexample: when the optimized structure is produced but the
trajectory log is missing, the button handler overwrites session state,
clearing the previously stored trajectory — so session state is not left
intact by (and not cleared only outside of) the optimization step. -/
theorem optimization_clears_trajectory_cex :
    (run_button_handler ⟨true, true, true, "OPT", false, ""⟩
        ⟨some "o", some "OLD", true⟩).1.trajectory_xyz = none ∧
    (⟨some "o", some "OLD", true⟩ : SessionState).trajectory_xyz = some "OLD" := by
  constructor
  · rfl
  · rfl

/-- C8 (amended): on every failure path in which no optimized structure is
obtained — tool missing, nonzero exit, or missing optimized-structure
file — the handler produces no result and leaves the prior session state
exactly unchanged.  (When the structure is produced but the trajectory log
is missing, the handler does overwrite state, setting the stored
trajectory to `none`; nothing in the code clears state on upload.) -/
theorem optimization_failure_state_amended (env : XtbEnv) (st : SessionState)
    (h : env.xtbOnPath = false ∨ env.exitZero = false ∨ env.xtboptExists = false) :
    (run_xtb_optimization env).1 = (none, none) ∧
    (run_button_handler env st).1 = st := by
  have hrun : (run_xtb_optimization env).1 = (none, none) := by
    unfold run_xtb_optimization
    rcases h with h1 | h1 | h1
    · rw [h1]; rfl
    · cases h2 : env.xtbOnPath
      · rfl
      · rw [h1]; rfl
    · cases h2 : env.xtbOnPath
      · rfl
      · cases h3 : env.exitZero
        · rfl
        · rw [h1]; rfl
  refine ⟨hrun, ?_⟩
  unfold run_button_handler
  cases hr : run_xtb_optimization env with
  | mk p msgs =>
    rw [hr] at hrun
    have hp : p = (none, none) := hrun
    subst hp
    rfl

/-- C8 witness: a missing binary leaves a concrete session state
unchanged. -/
theorem optimization_failure_state_amended_witness :
    (run_xtb_optimization ⟨false, true, true, "X", true, "Y"⟩).1 = (none, none) ∧
    (run_button_handler ⟨false, true, true, "X", true, "Y"⟩
      ⟨some "o", some "t", true⟩).1 = ⟨some "o", some "t", true⟩ :=
  optimization_failure_state_amended _ _ (Or.inl rfl)

/-! ## Further helpers: indexing, zipping, strip fixpoints, block texts -/

theorem getElem?_lt {α : Type} (xs : List α) (i : Nat) (a : α)
    (h : xs[i]? = some a) : i < xs.length :=
  (List.getElem?_eq_some.mp h).1

theorem zip_getElem?_of {α β : Type} :
    ∀ (xs : List α) (ys : List β) (i : Nat) (a : α) (b : β),
      xs[i]? = some a → ys[i]? = some b → (xs.zip ys)[i]? = some (a, b) := by
  intro xs
  induction xs with
  | nil => intro ys i a b h; simp at h
  | cons x xs ih =>
    intro ys i a b hx hy
    cases ys with
    | nil => simp at hy
    | cons y ys =>
      cases i with
      | zero =>
        simp only [List.getElem?_cons_zero, Option.some.injEq] at hx hy
        simp [List.zip_cons_cons, hx, hy]
      | succ n =>
        simp only [List.getElem?_cons_succ] at hx hy
        simpa [List.zip_cons_cons] using ih ys n a b hx hy

theorem pyStrip_eq_self_of (s : String) (c d : Char)
    (hh : s.data.head? = some c) (hc : isPySpace c = false)
    (hl : s.data.getLast? = some d) (hd : isPySpace d = false) :
    pyStrip s = s := by
  unfold pyStrip
  rw [stripChars_eq_self s.data c d hh hc hl hd]

theorem pyStrip_natRepr (n : Nat) : pyStrip (natRepr n) = natRepr n := by
  unfold pyStrip
  rw [stripChars_all_digits (natRepr n).data
    (by
      intro h
      exact absurd h (by
        have := natRepr_head_digit n
        obtain ⟨c, t, hct, _⟩ := this
        rw [hct]
        simp))
    (natRepr_all_digit n)]

theorem line4_head (a f1 f2 f3 : String) (c : Char) (hh : a.data.head? = some c) :
    (a ++ " " ++ f1 ++ " " ++ f2 ++ " " ++ f3).data.head? = some c := by
  simp only [String.data_append, List.head?_append, hh]
  rfl

theorem blockText_append (xs ys : List String) :
    blockText (xs ++ ys) = blockText xs ++ blockText ys := by
  induction xs with
  | nil =>
    show blockText ys = "" ++ blockText ys
    simp
  | cons x xs ih =>
    show x ++ "\n" ++ blockText (xs ++ ys) = x ++ "\n" ++ blockText xs ++ blockText ys
    rw [ih, ← String.append_assoc]

theorem concatAll_blockText (blocks : List (List String)) :
    concatAll (blocks.map blockText) = blockText blocks.flatten := by
  induction blocks with
  | nil => rfl
  | cons b bs ih =>
    show blockText b ++ concatAll (bs.map blockText) = blockText (b ++ bs.flatten)
    rw [ih, blockText_append]

theorem write_xyz_eq_writeLines (atoms : List String) (coords : List (List ℚ))
    (cmt : String) (h3 : ∀ c ∈ coords, c.length = 3) :
    write_xyz_string atoms coords cmt
      = some (blockText (writeLines atoms coords cmt)) :=
  write_xyz_eval atoms coords cmt h3

theorem select_trajectory_step_eq (structures : List (List String × List (List ℚ)))
    (step : Nat) :
    select_trajectory_step structures step
      = (structures[step]?).bind fun p => write_xyz_string p.1 p.2 := rfl

unseal Rat.mul Rat.add Rat.sub Rat.inv in
/-- C1 counterexample: `parse_xyz_string` has no handler around `float(x)`
— a malformed numeric token raises an uncaught `ValueError` and aborts the
whole parse (`none`), and a line with too few tokens is not skipped but
kept with a truncated coordinate row; so malformed atom lines are not
"skipped rather than aborting" and a malformed line can be fatal. -/
theorem parse_malformed_fatal_cex :
    parse_xyz_string "1\nc\nO x 0.0 0.0" = none ∧
    parse_xyz_string "2\nc\nO 1.0\nH 1.0 2.0 3.0"
      = some (["O", "H"], [[1], [1, 2, 3]], "c") := by
  constructor
  · decide
  · decide

/-- C1 (amended): with a parsed header `n` and an existing comment line,
`parse_xyz_string` succeeds iff every atom slot `2 .. n+1` is consumable:
the line exists and is either blank (then it is skipped) or its tokens
2–4 all parse as floats.  A missing line or a malformed numeric token is
fatal to the whole parse; a line with fewer than four tokens is kept with
a truncated coordinate row.  On success the elements are the non-blank
slot lines' first tokens and the coordinate rows their parsed float
prefixes, with the comment from line 2. -/
theorem parse_single_frame_amended (s l0 : String) (n : Int) (cm : String)
    (h0 : (splitLines (pyStrip s))[0]? = some l0)
    (hn : pyInt l0 = some n)
    (h1 : (splitLines (pyStrip s))[1]? = some cm) :
    ((parse_xyz_string s).isSome = true ↔
      ∀ i ∈ List.range' 2 n.toNat, atomLineOk (splitLines (pyStrip s)) i) ∧
    ∀ atoms coords c, parse_xyz_string s = some (atoms, coords, c) →
      atoms = singleAtomsOf (splitLines (pyStrip s)) (List.range' 2 n.toNat) ∧
      coords = singleCoordsOf (splitLines (pyStrip s)) (List.range' 2 n.toNat) ∧
      c = cm := by
  constructor
  · have hbind : parse_xyz_string s
        = (parseAtoms (splitLines (pyStrip s)) (List.range' 2 n.toNat)).bind
            fun p => some (p.1, p.2, cm) := by
      show parseXyzLines (splitLines (pyStrip s)) = _
      unfold parseXyzLines
      rw [h0]
      simp only [Option.bind_eq_bind, Option.some_bind]
      rw [hn]
      simp only [Option.some_bind]
      rw [h1]
      simp only [Option.some_bind]
      rfl
    rw [hbind]
    cases hpa : parseAtoms (splitLines (pyStrip s)) (List.range' 2 n.toNat) with
    | none =>
      constructor
      · intro h
        simp at h
      · intro hall
        have h2 := (parseAtoms_isSome_iff (splitLines (pyStrip s))
          (List.range' 2 n.toNat)).mpr hall
        rw [hpa] at h2
        simp at h2
    | some p =>
      constructor
      · intro _
        exact (parseAtoms_isSome_iff (splitLines (pyStrip s))
          (List.range' 2 n.toNat)).mp (by rw [hpa]; rfl)
      · intro _
        rfl
  · intro atoms coords c hp
    obtain ⟨l0', n', h0', hn', h1', hpa⟩ :=
      parseXyzLines_inv (splitLines (pyStrip s)) atoms coords c hp
    have el0 : l0 = l0' := Option.some.inj (h0.symm.trans h0')
    rw [← el0] at hn'
    have en : n = n' := Option.some.inj (hn.symm.trans hn')
    have ec : c = cm := Option.some.inj (h1'.symm.trans h1)
    rw [← en] at hpa
    have h2 := parseAtoms_eq (splitLines (pyStrip s)) (List.range' 2 n.toNat) _ hpa
    exact ⟨congrArg Prod.fst h2, congrArg Prod.snd h2, ec⟩

unseal Rat.mul Rat.add Rat.sub Rat.inv in
/-- C1 witness: a declared count of 2 over a blank line and one good atom
line — the parse succeeds, the blank line is skipped, and exactly one
(element, coordinates) pair results. -/
theorem parse_single_frame_amended_witness :
    (parse_xyz_string "2\nc\n\nO 0.5 0.5 0.5").isSome = true ∧
    parse_xyz_string "2\nc\n\nO 0.5 0.5 0.5"
      = some (["O"], [[1/2, 1/2, 1/2]], "c") := by
  have h := parse_single_frame_amended "2\nc\n\nO 0.5 0.5 0.5" "2" 2 "c"
    (by decide) (by decide) (by decide)
  have hsome : (parse_xyz_string "2\nc\n\nO 0.5 0.5 0.5").isSome = true := by
    apply h.1.mpr
    intro i hi
    rw [show List.range' 2 (2 : Int).toNat = [2, 3] from by decide] at hi
    simp only [List.mem_cons, List.not_mem_nil, or_false] at hi
    rcases hi with rfl | rfl
    · exact ⟨"", by decide, Or.inl (by decide)⟩
    · exact ⟨"O 0.5 0.5 0.5", by decide, Or.inr (by decide)⟩
  obtain ⟨p, hp⟩ := Option.isSome_iff_exists.mp hsome
  obtain ⟨e1, e2, e3⟩ := h.2 p.1 p.2.1 p.2.2 (by rw [hp])
  rw [show singleAtomsOf (splitLines (pyStrip "2\nc\n\nO 0.5 0.5 0.5"))
    (List.range' 2 (2 : Int).toNat) = ["O"] from by decide] at e1
  rw [show singleCoordsOf (splitLines (pyStrip "2\nc\n\nO 0.5 0.5 0.5"))
    (List.range' 2 (2 : Int).toNat) = [[1/2, 1/2, 1/2]] from by decide] at e2
  refine ⟨hsome, ?_⟩
  rw [hp, ← e1, ← e2, ← e3]

unseal Rat.mul Rat.add Rat.sub Rat.inv in
/-- C4 counterexample: one well-formed block followed by a block whose
declared count (5) exceeds the remaining lines.  The out-of-range indices
are merely skipped by the inner guard, the one available atom line is
consumed, and the truncated trailing block is kept — the result has
length 2, not 1, refuting "bounds exceeding the available lines cause the
cursor to advance by one and retry" and the length-1 scenario. -/
theorem trajectory_truncated_kept_cex :
    parse_trajectory_xyz "1\nc\nO 1.0 2.0 3.0\n5\nc2\nH 1.0 2.0 3.0"
      = some [(["O"], [[1, 2, 3]]), (["H"], [[1, 2, 3]])] := by
  decide

/-- C4 (amended): the multi-structure parser's cursor discipline.  (1)
Whenever the iteration body runs to completion, the parsed header `n`
advances the cursor to `i + n + 2`, regardless of how many atom lines
were actually in range.  (2) A failed iteration (header unparseable or a
raised exception) advances the cursor by one.  (3) A completed iteration
with zero parsed atoms appends nothing.  (4) An unparseable header makes
the iteration fail.  Bounds exceeding the available lines do not abort
the block: in-range atom lines are still consumed. -/
theorem trajectory_cursor_amended (lines : List String) (i : Int) :
    (∀ st i2, trajIter lines i = some (st, i2) →
      ∃ l n, pyGet lines i = some l ∧ pyInt l = some n ∧ i2 = i + n + 2) ∧
    (∀ fuel acc, i < (lines.length : Int) → trajIter lines i = none →
      trajLoop lines (fuel + 1) i acc = trajLoop lines fuel (i + 1) acc) ∧
    (∀ fuel acc i2, i < (lines.length : Int) → trajIter lines i = some (none, i2) →
      trajLoop lines (fuel + 1) i acc = trajLoop lines fuel i2 acc) ∧
    (∀ l, pyGet lines i = some l → pyInt l = none → trajIter lines i = none) := by
  refine ⟨?_, ?_, ?_, ?_⟩
  · intro st i2 h
    exact trajIter_advance lines i (st, i2) h
  · intro fuel acc hlt hiter
    conv_lhs => unfold trajLoop
    rw [if_pos hlt, hiter]
  · intro fuel acc i2 hlt hiter
    conv_lhs => unfold trajLoop
    rw [if_pos hlt, hiter]
    show trajLoop lines fuel i2 (acc ++ []) = _
    rw [List.append_nil]
  · intro l hget hn
    unfold trajIter
    rw [hget]
    simp only [Option.bind_eq_bind, Option.some_bind]
    rw [hn]
    rfl

unseal Rat.mul Rat.add Rat.sub Rat.inv in
/-- C4 witness: the amended cursor rules at concrete inputs — a header of
5 with no atom lines in range still advances the cursor by 5 + 2 (and the
empty structure is dropped), and an unparseable header fails the
iteration. -/
theorem trajectory_cursor_amended_witness :
    (∃ l n, pyGet ["5", "c"] 0 = some l ∧ pyInt l = some n ∧ (7 : Int) = 0 + n + 2) ∧
    trajLoop ["5", "c"] 4 0 [] = trajLoop ["5", "c"] 3 7 [] ∧
    trajIter ["x", "c"] 0 = none :=
  ⟨(trajectory_cursor_amended ["5", "c"] 0).1 none 7 (by decide),
   (trajectory_cursor_amended ["5", "c"] 0).2.2.1 3 [] 7 (by decide) (by decide),
   (trajectory_cursor_amended ["x", "c"] 0).2.2.2 "x" (by decide) (by decide)⟩

/-- C9 counterexample: `int("-2")` succeeds, the cursor advance is
−2 + 2 = 0, and the loop body repeats at cursor 0 forever — Python hangs.
In the fueled model the iteration completes with the cursor unchanged,
and the loop exhausts the fuel bound that suffices for every terminating
run (`none` = divergence); so the parser does not terminate on every
input and the cursor does not strictly increase on every iteration. -/
theorem trajectory_cursor_stuck_cex :
    trajIter (splitLines (pyStrip "-2\nc")) 0 = some (none, 0) ∧
    parse_trajectory_xyz "-2\nc" = none := by
  constructor
  · decide
  · decide

/-- C9 (amended): termination holds for every input whose header lines
only ever parse to integers ≥ −1 (in particular every count ≥ 0, as any
genuine XYZ file has): each successful iteration then advances the cursor
from `i` to `i + n + 2 > i`, and each failed one to `i + 1`.  A header
parsing to an integer ≤ −2 makes the cursor advance nonpositive and the
loop diverges. -/
theorem trajectory_termination_amended (s : String)
    (hhdr : ∀ l ∈ splitLines (pyStrip s), ∀ n : Int, pyInt l = some n → -1 ≤ n) :
    (parse_trajectory_xyz s).isSome = true ∧
    ∀ i st i2, trajIter (splitLines (pyStrip s)) i = some (st, i2) → i < i2 := by
  constructor
  · unfold parse_trajectory_xyz
    apply trajLoop_total _ hhdr _ 0 [] (le_refl 0)
    have h2 : (splitLines (pyStrip s)).length ≤ trajFuel (splitLines (pyStrip s)) := by
      unfold trajFuel
      omega
    omega
  · intro i st i2 h
    obtain ⟨l, n, hget, hn, he⟩ := trajIter_advance _ i (st, i2) h
    have hmem := pyGet_mem _ i l hget
    have hb := hhdr l hmem n hn
    have he2 : i2 = i + n + 2 := he
    omega

unseal Rat.mul Rat.add Rat.sub Rat.inv in
/-- C9 witness: on a concrete well-formed input every header is ≥ −1, the
parse terminates, and the single completed iteration advances the cursor
from 0 to 3. -/
theorem trajectory_termination_amended_witness :
    (parse_trajectory_xyz "1\nc\nO 1.0 2.0 3.0").isSome = true ∧ (0 : Int) < 3 := by
  have hhdr : ∀ l ∈ splitLines (pyStrip "1\nc\nO 1.0 2.0 3.0"),
      ∀ n : Int, pyInt l = some n → -1 ≤ n := by
    intro l hl n hn
    rw [show splitLines (pyStrip "1\nc\nO 1.0 2.0 3.0")
      = ["1", "c", "O 1.0 2.0 3.0"] from by decide] at hl
    simp only [List.mem_cons, List.not_mem_nil, or_false] at hl
    rcases hl with rfl | rfl | rfl
    · rw [show pyInt "1" = some 1 from by decide] at hn
      injection hn with h2
      omega
    · rw [show pyInt "c" = none from by decide] at hn
      cases hn
    · rw [show pyInt "O 1.0 2.0 3.0" = none from by decide] at hn
      cases hn
  have h := trajectory_termination_amended "1\nc\nO 1.0 2.0 3.0" hhdr
  exact ⟨h.1, h.2 0 (some (["O"], [[1, 2, 3]])) 3 (by decide)⟩

/-- C6: the serializer's contract.  For equal-length element and
coordinate lists (three coordinates per atom) and a comment, the produced
text's lines are: the rendered atom count, the comment, then exactly one
line `<element> <x> <y> <z>` per atom with each coordinate rendered by
the fixed-6-decimals format; `(writeLines ...).drop 2` are the per-atom
lines.  The function is pure and deterministic (it is a function of its
arguments).  The newline-freedom hypotheses keep the line structure
recoverable by `splitLines`. -/
theorem write_xyz_contract (atoms : List String) (coords : List (List ℚ)) (cmt : String)
    (hlen : atoms.length = coords.length)
    (h3 : ∀ c ∈ coords, c.length = 3)
    (hnlc : '\n' ∉ cmt.data)
    (hnla : ∀ a ∈ atoms, '\n' ∉ a.data) :
    write_xyz_string atoms coords cmt = some (blockText (writeLines atoms coords cmt)) ∧
    splitLines (blockText (writeLines atoms coords cmt))
      = writeLines atoms coords cmt ++ [""] ∧
    (writeLines atoms coords cmt).length = atoms.length + 2 ∧
    (writeLines atoms coords cmt)[0]? = some (natRepr atoms.length) ∧
    (writeLines atoms coords cmt)[1]? = some cmt ∧
    ∀ (i : Nat) (a : String) (c : List ℚ), atoms[i]? = some a → coords[i]? = some c →
      ((writeLines atoms coords cmt).drop 2)[i]?
        = some (a ++ " " ++ fmt6 (c.getD 0 0) ++ " " ++ fmt6 (c.getD 1 0) ++ " "
            ++ fmt6 (c.getD 2 0)) := by
  have hnl : ∀ l ∈ writeLines atoms coords cmt, '\n' ∉ l.data := by
    intro l hl
    rcases List.mem_cons.mp hl with rfl | hl2
    · exact natRepr_no_nl _
    · rcases List.mem_cons.mp hl2 with rfl | hl3
      · exact hnlc
      · obtain ⟨p, hp, rfl⟩ := List.mem_map.mp hl3
        exact line4_no_nl _ _ _ _ (hnla p.1 (List.of_mem_zip hp).1)
          (fmt6_no_nl _) (fmt6_no_nl _) (fmt6_no_nl _)
  refine ⟨write_xyz_eq_writeLines atoms coords cmt h3,
    splitLines_blockText _ hnl, ?_, by simp [writeLines], by simp [writeLines], ?_⟩
  · simp only [writeLines, List.length_cons, List.length_map, List.length_zip]
    omega
  · intro i a c ha hc
    show ((atoms.zip coords).map _)[i]? = _
    rw [List.getElem?_map, zip_getElem?_of atoms coords i a c ha hc]
    rfl

unseal Rat.mul Rat.add Rat.sub Rat.inv in
/-- C6 witness: the water scenario — serializing `["O", "H", "H"]` with
the given coordinates yields a first line `"3"` and a third line (first
atom line) `"O 0.000000 0.000000 0.000000"`. -/
theorem write_xyz_contract_witness :
    (writeLines ["O", "H", "H"]
      [[0, 0, 0], [0, 0, 96/100], [93/100, 0, -(24/100)]] "water")[0]? = some "3" ∧
    ((writeLines ["O", "H", "H"]
      [[0, 0, 0], [0, 0, 96/100], [93/100, 0, -(24/100)]] "water").drop 2)[0]?
      = some "O 0.000000 0.000000 0.000000" := by
  have h := write_xyz_contract ["O", "H", "H"]
    [[0, 0, 0], [0, 0, 96/100], [93/100, 0, -(24/100)]] "water"
    (by decide) (by decide) (by decide) (by decide)
  constructor
  · rw [h.2.2.2.1]
    decide
  · rw [h.2.2.2.2.2 0 "O" [0, 0, 0] (by decide) (by decide)]
    decide

/-- C7: slice selection over a parsed trajectory.  An index is valid
(selection produces a text) precisely when it lies in `0 .. L−1`, and
selecting index `i` returns the `i`-th structure in file order,
re-serialized by the section-4.2 serializer; the trajectory list itself
is not modified (selection is a pure lookup). -/
theorem trajectory_slice_selection (s : String)
    (structures : List (List String × List (List ℚ)))
    (hs : parse_trajectory_xyz s = some structures) (step : Nat) :
    ((select_trajectory_step structures step).isSome = true
      ↔ step < structures.length) ∧
    ∀ p, structures[step]? = some p →
      select_trajectory_step structures step = write_xyz_string p.1 p.2 := by
  have hrows := parse_trajectory_coords_len s structures hs
  constructor
  · constructor
    · intro hsome
      obtain ⟨t, ht⟩ := Option.isSome_iff_exists.mp hsome
      rw [select_trajectory_step_eq] at ht
      cases hq : structures[step]? with
      | none =>
        rw [hq] at ht
        simp only [Option.none_bind] at ht
        exact Option.noConfusion ht
      | some p => exact getElem?_lt structures step p hq
    · intro hlt
      have hq := List.getElem?_eq_getElem hlt
      have hmem : structures[step] ∈ structures := List.getElem?_mem hq
      have h3 : ∀ c ∈ (structures[step]).2, c.length = 3 := hrows _ hmem
      have hw := write_xyz_eval (structures[step]).1 (structures[step]).2
        "Generated by Streamlit app" h3
      rw [select_trajectory_step_eq, hq]
      simp only [Option.some_bind]
      rw [hw]
      rfl
  · intro p hp
    rw [select_trajectory_step_eq, hp]
    rfl

unseal Rat.mul Rat.add Rat.sub Rat.inv in
/-- C7 witness: for the one-structure trajectory parsed from a concrete
text, index 0 is valid and selects the structure re-serialized. -/
theorem trajectory_slice_selection_witness :
    ((select_trajectory_step [(["O"], [[(1 : ℚ), 2, 3]])] 0).isSome = true
      ↔ 0 < [(["O"], [[(1 : ℚ), 2, 3]])].length) ∧
    select_trajectory_step [(["O"], [[(1 : ℚ), 2, 3]])] 0
      = write_xyz_string ["O"] [[1, 2, 3]] := by
  have h := trajectory_slice_selection "1\nc\nO 1.0 2.0 3.0" [(["O"], [[1, 2, 3]])]
    (by decide) 0
  exact ⟨h.1, h.2 (["O"], [[1, 2, 3]]) (by decide)⟩

/-- C10: the multi-frame parser returns only (elements, coordinates)
pairs — each frame's comment line is read but discarded — so a selected
trajectory frame is re-serialized with the serializer's default comment:
line 2 of the re-serialized text is "Generated by Streamlit app",
whatever comment the trajectory file carried. -/
theorem trajectory_default_comment (s : String)
    (structures : List (List String × List (List ℚ)))
    (hs : parse_trajectory_xyz s = some structures) (step : Nat) (t : String)
    (ht : select_trajectory_step structures step = some t) :
    (splitLines t)[1]? = some "Generated by Streamlit app" := by
  rw [select_trajectory_step_eq] at ht
  cases hq : structures[step]? with
  | none =>
    rw [hq] at ht
    simp only [Option.none_bind] at ht
    exact Option.noConfusion ht
  | some p =>
    rw [hq] at ht
    simp only [Option.some_bind] at ht
    have hmem : p ∈ structures := List.getElem?_mem hq
    have h3 : ∀ c ∈ p.2, c.length = 3 :=
      parse_trajectory_coords_len s structures hs p hmem
    rw [write_xyz_eval p.1 p.2 "Generated by Streamlit app" h3] at ht
    rw [← Option.some.inj ht]
    exact splitLines_blockText_get1 _ _ _ (natRepr_no_nl _) (by decide)

unseal Rat.mul Rat.add Rat.sub Rat.inv in
/-- C10 witness: the frame parsed from a file whose comment line is "c"
re-serializes with second line "Generated by Streamlit app". -/
theorem trajectory_default_comment_witness :
    (splitLines "1\nGenerated by Streamlit app\nO 1.000000 2.000000 3.000000\n")[1]?
      = some "Generated by Streamlit app" :=
  trajectory_default_comment "1\nc\nO 1.0 2.0 3.0" [(["O"], [[1, 2, 3]])]
    (by decide) 0 "1\nGenerated by Streamlit app\nO 1.000000 2.000000 3.000000\n"
    (by decide)

/-- C5: multi-frame parsing of `k` concatenated well-formed blocks yields
exactly `k` structures, the `i`-th being that block's elements and
coordinate rows — and parsing any of the blocks alone with the
single-structure parser returns exactly those elements and rows (plus the
block's comment line). -/
theorem trajectory_concat_blocks (blocks : List (List String))
    (hwf : ∀ b ∈ blocks, WFBlock b) (hne : blocks ≠ []) :
    parse_trajectory_xyz (concatAll (blocks.map blockText))
      = some (blocks.map fun b => (blockElems b, blockCoords b)) ∧
    ∀ b ∈ blocks, parse_xyz_string (blockText b)
      = some (blockElems b, blockCoords b, (b[1]?).getD "") := by
  refine ⟨?_, fun b hb => parse_block b (hwf b hb)⟩
  rw [concatAll_blockText]
  obtain ⟨b0, bs, rfl⟩ : ∃ b0 bs, blocks = b0 :: bs := by
    cases blocks with
    | nil => exact absurd rfl hne
    | cons x xs => exact ⟨x, xs, rfl⟩
  obtain ⟨hdr, cm, atomLines, hb0, hn, hne0, hfix, hnl1, hnl2, hok⟩ :=
    hwf b0 (List.mem_cons_self b0 bs)
  subst hb0
  have hnl : ∀ l ∈ ((hdr :: cm :: atomLines) :: bs).flatten, '\n' ∉ l.data := by
    intro l hl
    obtain ⟨b, hb, hlb⟩ := List.mem_flatten.mp hl
    exact WFBlock_no_nl b (hwf b hb) l hlb
  have hlines : splitLines (pyStrip (blockText ((hdr :: cm :: atomLines) :: bs).flatten))
      = ((hdr :: cm :: atomLines) :: bs).flatten := by
    apply splitLines_pyStrip_blockText _ (by simp) hnl
    · obtain ⟨c, t, hct, hc⟩ := head_not_space_of_strip_fix hdr.data
        (pyStrip_fix_data hdr hfix)
        (data_ne_nil_of_ne_empty hdr (pyInt_ne_empty hdr _ hn))
      exact ⟨c, t, hct, hc⟩
    · obtain ⟨llast, hl1, hl2, hl3⟩ := flatten_last_line _ (by simp) hwf
      obtain ⟨d, hd, hdns⟩ := last_not_space_of_strip_fix llast.data
        (pyStrip_fix_data _ hl2) (data_ne_nil_of_ne_empty _ hl3)
      exact ⟨llast, hl1, d, hd, hdns⟩
  have hfuel : (((hdr :: cm :: atomLines) :: bs) : List (List String)).length
      < trajFuel ((hdr :: cm :: atomLines) :: bs).flatten := by
    have h1 := blocks_length_le_flatten ((hdr :: cm :: atomLines) :: bs)
      (fun b hb => by
        obtain ⟨hdr2, cm2, al2, hb2, _⟩ := hwf b hb
        rw [hb2]
        simp)
    unfold trajFuel
    omega
  show trajLoop (splitLines (pyStrip (blockText ((hdr :: cm :: atomLines) :: bs).flatten)))
    (trajFuel (splitLines (pyStrip (blockText ((hdr :: cm :: atomLines) :: bs).flatten))))
    0 [] = _
  rw [hlines]
  have hmain := trajLoop_blocks ((hdr :: cm :: atomLines) :: bs).flatten
    ((hdr :: cm :: atomLines) :: bs) (trajFuel ((hdr :: cm :: atomLines) :: bs).flatten)
    0 [] hwf (List.drop_zero _) hfuel
  simpa using hmain

unseal Rat.mul Rat.add Rat.sub Rat.inv in
/-- C5 witness: two concrete well-formed blocks — the concatenation
parses to the two structures, and the first block alone parses to the
first structure with its comment. -/
theorem trajectory_concat_blocks_witness :
    parse_trajectory_xyz
        (concatAll ([["1", "c", "O 1.0 2.0 3.0"], ["1", "c2", "H 0.5 0.5 0.5"]].map
          blockText))
      = some ([["1", "c", "O 1.0 2.0 3.0"], ["1", "c2", "H 0.5 0.5 0.5"]].map
          fun b => (blockElems b, blockCoords b)) ∧
    parse_xyz_string (blockText ["1", "c", "O 1.0 2.0 3.0"])
      = some (blockElems ["1", "c", "O 1.0 2.0 3.0"],
          blockCoords ["1", "c", "O 1.0 2.0 3.0"], "c") := by
  have hwf : ∀ b ∈ [["1", "c", "O 1.0 2.0 3.0"], ["1", "c2", "H 0.5 0.5 0.5"]],
      WFBlock b := by
    intro b hb
    simp only [List.mem_cons, List.not_mem_nil, or_false] at hb
    rcases hb with rfl | rfl
    · exact ⟨"1", "c", ["O 1.0 2.0 3.0"], rfl, by decide, by decide, by decide,
        by decide, by decide, by decide⟩
    · exact ⟨"1", "c2", ["H 0.5 0.5 0.5"], rfl, by decide, by decide, by decide,
        by decide, by decide, by decide⟩
  have h := trajectory_concat_blocks _ hwf (by decide)
  refine ⟨h.1, ?_⟩
  simpa using h.2 ["1", "c", "O 1.0 2.0 3.0"] (by decide)

/-! ## Round-trip support: the serializer's output is a well-formed block -/

theorem WFBlock_coords_len (b : List String) (hwf : WFBlock b) :
    ∀ c ∈ blockCoords b, c.length = 3 := by
  obtain ⟨hdr, cm, atomLines, rfl, hn, hne, hfix, hnl1, hnl2, hok⟩ := hwf
  intro c hc
  rw [show blockCoords (hdr :: cm :: atomLines)
    = atomLines.map (fun l => (((pySplit l).drop 1).take 3).filterMap pyFloat)
    from rfl] at hc
  obtain ⟨l, hl, rfl⟩ := List.mem_map.mp hc
  obtain ⟨_, _, h4, hms⟩ := hok l hl
  obtain ⟨ys, hys⟩ := Option.isSome_iff_exists.mp hms
  rw [optionMapM_filterMap _ _ _ hys, optionMapM_length _ _ _ hys,
    List.length_take, List.length_drop]
  omega

theorem WFBlock_writeLines (atoms : List String) (coords : List (List ℚ))
    (cmt : String)
    (hlen : atoms.length = coords.length)
    (hne : atoms ≠ [])
    (hnlc : '\n' ∉ cmt.data)
    (ha : ∀ a ∈ atoms, a.data ≠ [] ∧ ∀ ch ∈ a.data, isPySpace ch = false) :
    WFBlock (writeLines atoms coords cmt) := by
  have hz : ((atoms.zip coords).map fun p =>
      p.1 ++ " " ++ fmt6 (p.2.getD 0 0) ++ " " ++ fmt6 (p.2.getD 1 0)
        ++ " " ++ fmt6 (p.2.getD 2 0)).length = atoms.length := by
    rw [List.length_map, List.length_zip, ← hlen, Nat.min_self]
  refine ⟨natRepr atoms.length, cmt, _, rfl, ?_, ?_, pyStrip_natRepr _,
    natRepr_no_nl _, hnlc, ?_⟩
  · rw [hz]
    exact pyInt_natRepr _
  · apply List.length_pos.mp
    rw [hz]
    exact List.length_pos.mpr hne
  · intro l hl
    obtain ⟨p, hp, rfl⟩ := List.mem_map.mp hl
    obtain ⟨hamem, hcmem⟩ := List.of_mem_zip hp
    obtain ⟨hane, hasp⟩ := ha p.1 hamem
    have hps := pySplit_line4 p.1 (fmt6 (p.2.getD 0 0)) (fmt6 (p.2.getD 1 0))
      (fmt6 (p.2.getD 2 0)) hane hasp
      (fmt6_ne_nil _) (fmt6_not_space _) (fmt6_ne_nil _) (fmt6_not_space _)
      (fmt6_ne_nil _) (fmt6_not_space _)
    refine ⟨?_, ?_, ?_, ?_⟩
    · exact line4_no_nl _ _ _ _ (no_nl_of_no_space _ hasp)
        (fmt6_no_nl _) (fmt6_no_nl _) (fmt6_no_nl _)
    · obtain ⟨c0, t0, hct, hc0⟩ :
          ∃ c0 t0, p.1.data = c0 :: t0 ∧ isPySpace c0 = false := by
        cases hd : p.1.data with
        | nil => exact absurd hd hane
        | cons c0 t0 =>
          exact ⟨c0, t0, rfl, hasp c0 (by rw [hd]; exact List.mem_cons_self _ _)⟩
      obtain ⟨d, hdl, hdd⟩ := fmt6_last_digit (p.2.getD 2 0)
      exact pyStrip_eq_self_of _ c0 d
        (line4_head _ _ _ _ c0 (by rw [hct]; rfl)) hc0
        (by rw [line4_last _ _ _ _ (fmt6_ne_nil _)]; exact hdl)
        (not_space_of_digit d hdd)
    · rw [hps]
      exact le_refl 4
    · rw [hps]
      rw [show (([p.1, fmt6 (p.2.getD 0 0), fmt6 (p.2.getD 1 0),
          fmt6 (p.2.getD 2 0)]).drop 1).take 3
        = [fmt6 (p.2.getD 0 0), fmt6 (p.2.getD 1 0), fmt6 (p.2.getD 2 0)] from rfl,
        mapM_float3]
      rfl

theorem blockElems_writeLines (atoms : List String) (coords : List (List ℚ))
    (cmt : String)
    (hlen : atoms.length = coords.length)
    (ha : ∀ a ∈ atoms, a.data ≠ [] ∧ ∀ ch ∈ a.data, isPySpace ch = false) :
    blockElems (writeLines atoms coords cmt) = atoms := by
  show (((atoms.zip coords).map fun p =>
      p.1 ++ " " ++ fmt6 (p.2.getD 0 0) ++ " " ++ fmt6 (p.2.getD 1 0)
        ++ " " ++ fmt6 (p.2.getD 2 0)).map
      fun l => ((pySplit l).head?).getD "") = atoms
  rw [List.map_map]
  have h1 : ∀ p ∈ atoms.zip coords,
      ((fun l => ((pySplit l).head?).getD "") ∘ fun p =>
        p.1 ++ " " ++ fmt6 (p.2.getD 0 0) ++ " " ++ fmt6 (p.2.getD 1 0)
          ++ " " ++ fmt6 (p.2.getD 2 0)) p = Prod.fst p := by
    intro p hp
    obtain ⟨hamem, _⟩ := List.of_mem_zip hp
    obtain ⟨hane, hasp⟩ := ha p.1 hamem
    show ((pySplit (p.1 ++ " " ++ fmt6 (p.2.getD 0 0) ++ " " ++ fmt6 (p.2.getD 1 0)
      ++ " " ++ fmt6 (p.2.getD 2 0))).head?).getD "" = p.1
    rw [pySplit_line4 p.1 _ _ _ hane hasp
      (fmt6_ne_nil _) (fmt6_not_space _) (fmt6_ne_nil _) (fmt6_not_space _)
      (fmt6_ne_nil _) (fmt6_not_space _)]
    rfl
  rw [List.map_congr_left h1]
  exact List.map_fst_zip atoms coords (le_of_eq hlen)

theorem blockCoords_writeLines (atoms : List String) (coords : List (List ℚ))
    (cmt : String)
    (hlen : atoms.length = coords.length)
    (ha : ∀ a ∈ atoms, a.data ≠ [] ∧ ∀ ch ∈ a.data, isPySpace ch = false) :
    blockCoords (writeLines atoms coords cmt)
      = coords.map fun c =>
          [((round (c.getD 0 0 * 1000000) : ℤ) : ℚ) / 1000000,
           ((round (c.getD 1 0 * 1000000) : ℤ) : ℚ) / 1000000,
           ((round (c.getD 2 0 * 1000000) : ℤ) : ℚ) / 1000000] := by
  show (((atoms.zip coords).map fun p =>
      p.1 ++ " " ++ fmt6 (p.2.getD 0 0) ++ " " ++ fmt6 (p.2.getD 1 0)
        ++ " " ++ fmt6 (p.2.getD 2 0)).map
      fun l => (((pySplit l).drop 1).take 3).filterMap pyFloat) = _
  rw [List.map_map]
  have h1 : ∀ p ∈ atoms.zip coords,
      ((fun l => (((pySplit l).drop 1).take 3).filterMap pyFloat) ∘ fun p =>
        p.1 ++ " " ++ fmt6 (p.2.getD 0 0) ++ " " ++ fmt6 (p.2.getD 1 0)
          ++ " " ++ fmt6 (p.2.getD 2 0)) p
      = ((fun c : List ℚ =>
          [((round (c.getD 0 0 * 1000000) : ℤ) : ℚ) / 1000000,
           ((round (c.getD 1 0 * 1000000) : ℤ) : ℚ) / 1000000,
           ((round (c.getD 2 0 * 1000000) : ℤ) : ℚ) / 1000000]) ∘ Prod.snd) p := by
    intro p hp
    obtain ⟨hamem, _⟩ := List.of_mem_zip hp
    obtain ⟨hane, hasp⟩ := ha p.1 hamem
    show (((pySplit (p.1 ++ " " ++ fmt6 (p.2.getD 0 0) ++ " " ++ fmt6 (p.2.getD 1 0)
      ++ " " ++ fmt6 (p.2.getD 2 0))).drop 1).take 3).filterMap pyFloat = _
    rw [pySplit_line4 p.1 _ _ _ hane hasp
      (fmt6_ne_nil _) (fmt6_not_space _) (fmt6_ne_nil _) (fmt6_not_space _)
      (fmt6_ne_nil _) (fmt6_not_space _)]
    show ([fmt6 (p.2.getD 0 0), fmt6 (p.2.getD 1 0),
      fmt6 (p.2.getD 2 0)]).filterMap pyFloat = _
    rw [optionMapM_filterMap _ _ _ (mapM_float3 _ _ _)]
    rfl
  rw [List.map_congr_left h1, ← List.map_map]
  rw [List.map_snd_zip atoms coords (le_of_eq hlen.symm)]

/-- C2: the round trip.  For any well-formed single-frame input (a
well-formed XYZ block rendered as text), serializing the parse result
succeeds, and re-parsing the serialized text reproduces the same element
list (hence the same atom count, which is also the output's first line)
and coordinates that differ from the originals by at most half of the
last printed decimal place, 1/2000000. -/
theorem roundtrip_single_frame (b : List String) (hwf : WFBlock b)
    (atoms : List String) (coords : List (List ℚ)) (cmt : String)
    (hp : parse_xyz_string (blockText b) = some (atoms, coords, cmt)) :
    ∃ out coords2,
      write_xyz_string atoms coords cmt = some out ∧
      parse_xyz_string out = some (atoms, coords2, cmt) ∧
      (splitLines out)[0]? = some (natRepr atoms.length) ∧
      coords2.length = coords.length ∧
      List.Forall₂ (List.Forall₂ fun x y => |y - x| ≤ 1 / 2000000) coords coords2 := by
  have hpb := parse_block b hwf
  rw [hp] at hpb
  have h1 := Option.some.inj hpb
  have hA : atoms = blockElems b := congrArg Prod.fst h1
  have hC : coords = blockCoords b := congrArg (fun x => x.2.1) h1
  have hM : cmt = (b[1]?).getD "" := congrArg (fun x => x.2.2) h1
  obtain ⟨hdr, cm, atomLines, hb, hn, hne0, hfix, hnl1, hnl2, hok⟩ := hwf
  have h3 : ∀ c ∈ coords, c.length = 3 := by
    rw [hC]
    exact WFBlock_coords_len b
      ⟨hdr, cm, atomLines, hb, hn, hne0, hfix, hnl1, hnl2, hok⟩
  subst hb
  have hA2 : atoms = atomLines.map fun l => ((pySplit l).head?).getD "" := by
    rw [hA]
    rfl
  have hC2 : coords
      = atomLines.map fun l => (((pySplit l).drop 1).take 3).filterMap pyFloat := by
    rw [hC]
    rfl
  have hlen : atoms.length = coords.length := by
    rw [hA2, hC2]
    simp
  have hAne : atoms ≠ [] := by
    rw [hA2]
    intro h
    exact hne0 (List.map_eq_nil_iff.mp h)
  have hM2 : cmt = cm := by
    rw [hM]
    simp
  have hnlcmt : '\n' ∉ cmt.data := by
    rw [hM2]
    exact hnl2
  have hatoks : ∀ a ∈ atoms, a.data ≠ [] ∧ ∀ ch ∈ a.data, isPySpace ch = false := by
    intro a ha
    rw [hA2] at ha
    obtain ⟨l, hl, rfl⟩ := List.mem_map.mp ha
    obtain ⟨_, _, h4, _⟩ := hok l hl
    cases hh : (pySplit l).head? with
    | none =>
      cases hx : pySplit l with
      | nil =>
        rw [hx] at h4
        simp at h4
      | cons e ts =>
        rw [hx] at hh
        simp at hh
    | some e =>
      have hmem : e ∈ pySplit l := List.mem_of_mem_head? hh
      obtain ⟨hne2, hw2⟩ := pySplit_token_props l e hmem
      exact ⟨data_ne_nil_of_ne_empty e hne2, hw2⟩
  have hwf2 : WFBlock (writeLines atoms coords cmt) :=
    WFBlock_writeLines atoms coords cmt hlen hAne hnlcmt hatoks
  have hout := write_xyz_eq_writeLines atoms coords cmt h3
  have hparse2 := parse_block _ hwf2
  have hcm2 : ((writeLines atoms coords cmt)[1]?).getD "" = cmt := by
    simp [writeLines]
  have hE := blockElems_writeLines atoms coords cmt hlen hatoks
  have hCo := blockCoords_writeLines atoms coords cmt hlen hatoks
  refine ⟨blockText (writeLines atoms coords cmt),
    blockCoords (writeLines atoms coords cmt), hout, ?_, ?_, ?_, ?_⟩
  · rw [hparse2, hE, hcm2]
  · rw [splitLines_blockText _ (WFBlock_no_nl _ hwf2)]
    simp [writeLines]
  · rw [hCo, List.length_map]
  · rw [hCo, List.forall₂_map_right_iff]
    apply List.forall₂_same.mpr
    intro c hc
    obtain ⟨x, y, z, rfl⟩ := List.length_eq_three.mp (h3 c hc)
    refine List.Forall₂.cons ?_ (List.Forall₂.cons ?_
      (List.Forall₂.cons ?_ List.Forall₂.nil))
    · exact round_div_bound x
    · exact round_div_bound y
    · exact round_div_bound z

unseal Rat.mul Rat.add Rat.sub Rat.inv in
/-- C2 witness: the water example round-trips — serialization succeeds,
re-parsing returns the same three elements and the same comment, the
output's first line renders the count 3, and every re-parsed coordinate
is within 1/2000000 of the original. -/
theorem roundtrip_single_frame_witness :
    ∃ out coords2,
      write_xyz_string ["O", "H", "H"]
        [[0, 0, 0], [0, 0, 96/100], [93/100, 0, -(24/100)]] "water" = some out ∧
      parse_xyz_string out = some (["O", "H", "H"], coords2, "water") ∧
      (splitLines out)[0]? = some (natRepr (["O", "H", "H"] : List String).length) ∧
      coords2.length
        = ([[0, 0, 0], [0, 0, 96/100], [93/100, 0, -(24/100)]] : List (List ℚ)).length ∧
      List.Forall₂ (List.Forall₂ fun x y => |y - x| ≤ 1 / 2000000)
        [[0, 0, 0], [0, 0, 96/100], [93/100, 0, -(24/100)]] coords2 :=
  roundtrip_single_frame
    ["3", "water", "O 0.0 0.0 0.0", "H 0.0 0.0 0.96", "H 0.93 0.0 -0.24"]
    ⟨"3", "water", ["O 0.0 0.0 0.0", "H 0.0 0.0 0.96", "H 0.93 0.0 -0.24"], rfl,
      by decide, by decide, by decide, by decide, by decide, by decide⟩
    ["O", "H", "H"] [[0, 0, 0], [0, 0, 96/100], [93/100, 0, -(24/100)]] "water"
    (by decide)
